import Mathlib

/-!
Verification of the J-Challenge distributed cache against its specification.

The repository is a Rust workspace: a line codec and socket multiplexer
(`crates/net`), an in-process cache engine (hash index + LRU recency list +
hashed timing wheel, `apps/cache_node`), and a router with a consistent-hash
ring and topology registry (`apps/cache_master`).  This file shallowly embeds
the relevant parts: shared hash maps (`DashMap`, `HashMap`) become association
lists, `u64`/`usize` become `Nat`, clock reads become explicit `now`
parameters, and fallible or panicking paths return `Option`/`Except`.
Each definition is translated from the named Rust source item.
-/

namespace JChallenge

/-! ### Association lists

`DashMap`/`HashMap`/`DashSet` are modelled as association lists whose key
order is irrelevant; a side invariant (`akeys … |>.Nodup`) mirrors the map
property that each key appears once.  `ainsert` overwrites in place like
`HashMap::insert`, `aerase` removes the key's entry like `HashMap::remove`,
and `updLink` models `get_mut` followed by a field update. -/

variable {K : Type} [DecidableEq K] {A : Type}

def alookup : List (K × A) → K → Option A
  | [], _ => none
  | (k, v) :: t, key => if k = key then some v else alookup t key

def akeys (l : List (K × A)) : List K := l.map Prod.fst

def ainsert (l : List (K × A)) (key : K) (v : A) : List (K × A) :=
  if (alookup l key).isSome then
    l.map (fun p => if p.1 = key then (key, v) else p)
  else
    (key, v) :: l

def aerase (l : List (K × A)) (key : K) : List (K × A) :=
  l.filter (fun p => p.1 ≠ key)

def updLink (l : List (K × A)) (key : K) (f : A → A) : List (K × A) :=
  l.map (fun p => if p.1 = key then (p.1, f p.2) else p)

/-! ### Decimal digits

Model of Rust's `Display`/`FromStr` for unsigned integers, used by the
codec (`format!("RES {} {} …", id, code)`, `parts[2].parse::<u16>()`) and by
the socket's request-id counter (`counter.fetch_add(1).to_string()`).
`natToChars` renders a `Nat` in decimal; `parseU16` accepts an optional
leading `+`, then one or more ASCII digits whose value fits in `u16`,
exactly as `u16::from_str` does. -/

def digitChar (n : Nat) : Char := Char.ofNat (48 + n)

def natToCharsAux : Nat → Nat → List Char → List Char
  | 0, _, acc => acc
  | fuel + 1, n, acc =>
      if n < 10 then digitChar n :: acc
      else natToCharsAux fuel (n / 10) (digitChar (n % 10) :: acc)

def natToChars (n : Nat) : List Char := natToCharsAux (n + 1) n []

def isDigitChar (c : Char) : Bool := 48 ≤ c.toNat && c.toNat ≤ 57

def digitsVal (l : List Char) : Nat := l.foldl (fun a c => a * 10 + (c.toNat - 48)) 0

def parseU16Core (l : List Char) : Option Nat :=
  if l ≠ [] ∧ l.all isDigitChar ∧ digitsVal l ≤ 65535 then some (digitsVal l)
  else none

def parseU16 (l : List Char) : Option Nat :=
  match l with
  | '+' :: rest => parseU16Core rest
  | _ => parseU16Core l

/-! ### Errors

`crates/net` declares `use crate::error::SocketError` but the snapshot has no
`error.rs`; the variants below are the ones its callers construct
(`BadMessage`, `BadRequest`, `Timeout`, `WriteChannelClosed`,
`ResponseChannelClosed`, `ConnectionError`, `Internal`), matching the spec's
error taxonomy (§7).  Payload strings are carried as `List Char` or dropped
to the identifying data. -/

inductive SocketError : Type where
  | badMessage (input : List Char)
  | badRequest (input : List Char)
  | timeout (socketId : List Char) (reqId : List Char)
  | writeChannelClosed (socketId : List Char)
  | responseChannelClosed (socketId : List Char) (reqId : List Char)
  | connectionError (msg : List Char)
  | internal (msg : List Char)
deriving DecidableEq

/-! ### Line tokenizer of `crates/net/src/utils.rs` (`split_message`)

The Rust function scans the byte string with an index: skip spaces; a token
starting with `"` runs to the first `"` that is followed by a space or the
end of input (no escape handling; an unclosed quote takes the rest of the
input); any other token runs to the next space or `"`.  The index loop is
embedded as a state machine over the character list so that every recursion
is structural: `top` is "between tokens", `inq acc` is "inside a quoted
token", `unq acc` is "inside a bare token", with `acc` holding the token
read so far in reverse. -/

deriving instance DecidableEq for Except

inductive SMode : Type where
  | top
  | inq (acc : List Char)
  | unq (acc : List Char)

def smGo : List Char → SMode → List (List Char)
  | [], .top => []
  | [], .inq acc => [acc.reverse]
  | [], .unq acc => [acc.reverse]
  | c :: rest, .top =>
      if c = ' ' then smGo rest .top
      else if c = '"' then smGo rest (.inq [])
      else smGo rest (.unq [c])
  | c :: rest, .inq acc =>
      if c = '"' ∧ (rest = [] ∨ rest.head? = some ' ') then
        acc.reverse :: smGo rest .top
      else smGo rest (.inq (c :: acc))
  | c :: rest, .unq acc =>
      if c = ' ' then acc.reverse :: smGo rest .top
      else if c = '"' then acc.reverse :: smGo rest (.inq [])
      else smGo rest (.unq (c :: acc))

def splitMessage (l : List Char) : List (List Char) := smGo l .top

/-! ### `ResponseData` (`crates/net/src/response/data.rs`)

`parse` tokenizes with the net `split_message`, requires at least four
tokens, parses `parts[2]` as a `u16` code, and takes `parts[1]` as the
request id and `parts[3]` as the payload.  `to_string` renders
`RES <rid> <code> "<payload>"\n`. -/

structure ResponseData : Type where
  reqId : List Char
  code : Nat
  payload : List Char
deriving DecidableEq

def ResponseData.parse (s : List Char) : Except SocketError ResponseData :=
  let parts := splitMessage s
  if parts.length < 4 then .error (.badMessage s)
  else
    match parseU16 (parts.getD 2 []) with
    | none => .error (.badRequest (parts.getD 2 []))
    | some code => .ok ⟨parts.getD 1 [], code, parts.getD 3 []⟩

def ResponseData.toChars (r : ResponseData) : List Char :=
  'R' :: 'E' :: 'S' :: ' ' ::
    (r.reqId ++ ' ' :: (natToChars r.code ++ ' ' :: '"' :: (r.payload ++ ['"', '\n'])))

/-! ### Header tokenizer of `crates/core/src/utils.rs` (`split_message`)

`RequestData::parse` uses this second, different tokenizer: it reads at most
three header tokens (a quoted header token closes at a `"` not preceded by a
backslash), then treats everything after the third token as one payload:
skip spaces, trim trailing `\r`/`\n`, and strip a single pair of outer
quotes if the remaining slice both starts and ends with `"`.  When that
slice is exactly one `"` the strip makes the slice bounds cross
(`&input[s..e]` with `s > e`), which panics in Rust; the embedding returns
`none` for that case. -/

def coreQLen (prev : Char) : List Char → Nat
  | [] => 0
  | c :: rest => if c = '"' ∧ prev ≠ '\\' then 0 else 1 + coreQLen c rest

def coreReadToken (l : List Char) : Option (List Char × List Char) :=
  let l1 := l.dropWhile (fun c => c == ' ')
  match l1 with
  | [] => none
  | c :: rest =>
      if c = '"' then
        some (rest.take (coreQLen (Char.ofNat 0) rest), rest.drop (coreQLen (Char.ofNat 0) rest + 1))
      else
        some (l1.takeWhile (fun c => c != ' '), l1.dropWhile (fun c => c != ' '))

def coreTokens : Nat → List Char → List (List Char) × List Char
  | 0, l => ([], l)
  | n + 1, l =>
      match coreReadToken l with
      | none => ([], l)
      | some (t, r) =>
          let (ts, rest) := coreTokens n r
          (t :: ts, rest)

def trimEndCRLF (l : List Char) : List Char :=
  (l.reverse.dropWhile (fun c => c == '\r' || c == '\n')).reverse

def coreSplitMessage (l : List Char) : Option (List (List Char)) :=
  let (hdr, rest) := coreTokens 3 l
  let r1 := rest.dropWhile (fun c => c == ' ')
  if r1 = [] then some hdr
  else
    let t := trimEndCRLF r1
    if t.head? = some '"' ∧ t.getLast? = some '"' then
      if t.length = 1 then none
      else some (hdr ++ [(t.drop 1).dropLast])
    else some (hdr ++ [t])

/-! ### `RequestData` (`crates/net/src/request/data.rs`)

`parse` tokenizes with the core `split_message`, requires at least three
tokens (`BadMessage` otherwise), rejects an empty id or action
(`BadRequest`), and returns `(parts[1], parts[2], parts[3] or "")`.
`to_string` renders `REQ <rid> <action> "<payload>"\n`.  The `Option` layer
propagates the panic case of the core tokenizer. -/

structure RequestData : Type where
  id : List Char
  action : List Char
  payload : List Char
deriving DecidableEq

def RequestData.parse (s : List Char) : Option (Except SocketError RequestData) :=
  (coreSplitMessage s).map fun parts =>
    if parts.length < 3 then .error (.badMessage s)
    else
      let id := parts.getD 1 []
      let action := parts.getD 2 []
      let payload := parts.getD 3 []
      if action = [] ∨ id = [] then .error (.badRequest s)
      else .ok ⟨id, action, payload⟩

def RequestData.toChars (r : RequestData) : List Char :=
  'R' :: 'E' :: 'Q' :: ' ' ::
    (r.id ++ ' ' :: (r.action ++ ' ' :: '"' :: (r.payload ++ ['"', '\n'])))

/-! ### `parse_line` (`crates/net/src/message.rs`)

Trims the line (Rust `str::trim`; only ASCII whitespace can occur at the
ends of the frames considered here), then: a `REQ ` prefix parses the whole
trimmed line as a `RequestData`; a `RES ` prefix splits the rest at the
first space (`BadMessage` if there is none) and takes the first part as the
request id (`ReqId` is `String`, so `parse::<ReqId>` cannot fail); anything
else is `Other`. -/

def isRustWs (c : Char) : Bool := c == ' ' || c == '\n' || c == '\r' || c == '\t'

def rustTrim (l : List Char) : List Char :=
  ((l.dropWhile isRustWs).reverse.dropWhile isRustWs).reverse

def splitOnceSpace (l : List Char) : Except SocketError (List Char × List Char) :=
  let before := l.takeWhile (fun c => c != ' ')
  match l.dropWhile (fun c => c != ' ') with
  | [] => .error (.badMessage l)
  | _ :: after => .ok (before, after)

inductive ParsedMsg : Type where
  | req (data : RequestData)
  | res (id : List Char) (rawResponse : List Char)
  | other (msg : List Char)
deriving DecidableEq

def parseLine (line : List Char) : Option (Except SocketError ParsedMsg) :=
  let msg := rustTrim line
  if msg.take 4 = ['R', 'E', 'Q', ' '] then
    (RequestData.parse msg).map fun r =>
      match r with
      | .error e => .error e
      | .ok data => .ok (.req data)
  else if msg.take 4 = ['R', 'E', 'S', ' '] then
    match splitOnceSpace (msg.drop 4) with
    | .error e => some (.error e)
    | .ok (idStr, _) => some (.ok (.res idStr msg))
  else some (.ok (.other msg))

/-! ### Socket multiplexer (`crates/net/src/socket.rs`)

`Socket::request` allocates a request id from the atomic counter
(`fetch_add(1).to_string()`), registers a oneshot sender under that id in
`pending`, sends the encoded frame, and awaits the reply with a timeout.
The await has four outcomes: the matching `RES` arrives (the reader task
called `handle_response`, which removed the id from `pending` and delivered
the payload), the timeout fires (`Timeout`), the outbound channel is closed
(`WriteChannelClosed` — the send itself failed), or the oneshot sender was
dropped (`ResponseChannelClosed`).  The embedding keeps the `pending` map
and the counter, with the environment's behaviour for one call summarized
as a `ReqOutcome`; the registered waiter is a `Unit` value. -/

inductive ReqOutcome : Type where
  | resArrives (payload : List Char)
  | timesOut
  | writeClosed
  | waiterDropped
deriving DecidableEq

/-- Well-formedness of a header token (§6: "opaque non-whitespace token"):
nonempty, no space, no double quote. -/
def tokenOk (l : List Char) : Prop := l ≠ [] ∧ ' ' ∉ l ∧ '"' ∉ l

instance (l : List Char) : Decidable (tokenOk l) :=
  inferInstanceAs (Decidable (l ≠ [] ∧ ' ' ∉ l ∧ '"' ∉ l))

/-- A payload round-trips through the net tokenizer's quoted-token rule when
it never contains a `"` immediately followed by a space (such a quote would
end the token early). -/
def noQuoteSpace : List Char → Bool
  | [] => true
  | c :: rest =>
      if c = '"' ∧ rest.head? = some ' ' then false else noQuoteSpace rest

def ReqOutcome.isRes : ReqOutcome → Bool
  | .resArrives _ => true
  | _ => false

structure SocketState : Type where
  id : List Char
  pending : List (List Char × Unit)
  counter : Nat
deriving DecidableEq

def SocketState.getNewId (s : SocketState) : List Char × SocketState :=
  (natToChars s.counter, { s with counter := s.counter + 1 })

def SocketState.handleResponse (s : SocketState) (reqId : List Char) :
    SocketState × Bool :=
  if (alookup s.pending reqId).isSome then
    ({ s with pending := aerase s.pending reqId }, true)
  else (s, false)

def SocketState.requestStep (s : SocketState) (outcome : ReqOutcome) :
    SocketState × Except SocketError (List Char) :=
  let (reqId, s1) := s.getNewId
  let s2 := { s1 with pending := ainsert s1.pending reqId () }
  match outcome with
  | .writeClosed => (s2, .error (.writeChannelClosed s.id))
  | .resArrives payload =>
      let (s3, _) := s2.handleResponse reqId
      (s3, .ok payload)
  | .timesOut => (s2, .error (.timeout s.id reqId))
  | .waiterDropped => (s2, .error (.responseChannelClosed s.id reqId))

/-! ### LRU recency list (`apps/cache_node/src/core/services/cache/lru.rs`)

A doubly-linked list encoded in a `HashMap` of `key → (prev, next)` with
`head`/`tail` keys.  Each operation is translated statement by statement:
`detach` fixes the neighbours' pointers (leaving the key's own entry in the
map), `push_front` detaches an existing key and reinserts it at the head,
`pop_back` unlinks and removes the tail, `remove` detaches and removes. -/

structure LruState (K : Type) : Type where
  capacity : Nat
  head : Option K
  tail : Option K
  links : List (K × (Option K × Option K))
deriving DecidableEq

def LruState.new (capacity : Nat) : LruState K :=
  ⟨capacity, none, none, []⟩

def LruState.contains (s : LruState K) (key : K) : Bool :=
  (alookup s.links key).isSome

def LruState.detach (s : LruState K) (key : K) : LruState K :=
  match alookup s.links key with
  | none => s
  | some (prev, next) =>
      let s1 :=
        match prev with
        | some p => { s with links := updLink s.links p (fun e => (e.1, next)) }
        | none => { s with head := next }
      match next with
      | some n => { s1 with links := updLink s1.links n (fun e => (prev, e.2)) }
      | none => { s1 with tail := prev }

def LruState.pushFront (s : LruState K) (key : K) : LruState K :=
  let s1 := if (alookup s.links key).isSome then s.detach key else s
  let oldHead := s1.head
  let s2 := { s1 with head := some key, links := ainsert s1.links key (none, oldHead) }
  let s3 :=
    match oldHead with
    | some h => { s2 with links := updLink s2.links h (fun e => (some key, e.2)) }
    | none => s2
  if s3.tail.isNone then { s3 with tail := some key } else s3

def LruState.popBack (s : LruState K) : Option K × LruState K :=
  match s.tail with
  | none => (none, s)
  | some lru =>
      let s1 := { s with tail := none }
      let prev := (alookup s1.links lru).bind (fun e => e.1)
      let s2 :=
        match prev with
        | some p => { s1 with links := updLink s1.links p (fun e => (e.1, none)) }
        | none => { s1 with head := none }
      (some lru, { s2 with tail := prev, links := aerase s2.links lru })

def LruState.touch (s : LruState K) (key : K) : LruState K := s.pushFront key

def LruState.removeKey (s : LruState K) (key : K) : Bool × LruState K :=
  if (alookup s.links key).isSome then
    let s1 := s.detach key
    (true, { s1 with links := aerase s1.links key })
  else (false, s)

def LruState.overCapacity (s : LruState K) : Bool :=
  s.links.length > s.capacity

/-- The pointer map a doubly-linked list over the sequence `l` must hold:
the entry of each element carries its predecessor and successor in `l`
(`pr` is the predecessor of the first element — `none` for a whole list). -/
def seg : Option K → List K → List (K × (Option K × Option K))
  | _, [] => []
  | pr, x :: rest => (x, (pr, rest.head?)) :: seg (some x) rest

/-- `lastO xs pr` is the last element of `xs`, or `pr` when `xs` is empty:
the predecessor that a segment `xs` hands to what follows it. -/
def lastO (xs : List K) (pr : Option K) : Option K :=
  match xs.getLast? with
  | some x => some x
  | none => pr

/-- Abstraction relation: the `LruState` fields encode exactly the sequence
`l` (head = most-recently-used), i.e. the links map agrees pointwise with
the pointer map of `l`, has no duplicate keys and the right size, and
`head`/`tail` are the ends of `l`. -/
def ReprLru (s : LruState K) (l : List K) : Prop :=
  l.Nodup ∧
  s.head = l.head? ∧
  s.tail = l.getLast? ∧
  (akeys s.links).Nodup ∧
  s.links.length = l.length ∧
  ∀ q, alookup s.links q = alookup (seg none l) q

/-! ### Hashed timing wheel
(`apps/cache_node/src/core/services/cache/timing_wheel.rs`)

`slots` is a vector of key sets, `index` the inverse map `key → slot`,
`cursor` the absolute tick.  `slot_for` computes
`(expires_at / tick_ms) & (size - 1)`.  `advance_to` loops
`while cursor < target_ms / tick_ms`, snapshots the current slot, removes
each key from the slot and the inverse index and invokes the callback; the
embedding returns the keys passed to the callback, in order, instead of
taking a closure.  `Nat` division is total (`x / 0 = 0`), so the `tick_ms`
> 0 requirement appears as a hypothesis where it matters. -/

structure TimingWheel (K : Type) : Type where
  slots : List (List K)
  index : List (K × Nat)
  tickMs : Nat
  size : Nat
  cursor : Nat
deriving DecidableEq

def TimingWheel.new (size : Nat) (tickMs : Nat) (startMs : Nat) : TimingWheel K :=
  ⟨List.replicate size [], [], tickMs, size, startMs / tickMs⟩

def TimingWheel.slotFor (w : TimingWheel K) (expiresAtMs : Nat) : Nat × Nat :=
  let t := expiresAtMs / w.tickMs
  (t, t &&& (w.size - 1))

def slotInsert (l : List K) (key : K) : List K :=
  if key ∈ l then l else key :: l

def slotRemove (l : List K) (key : K) : List K :=
  l.filter (fun k => k ≠ key)

def TimingWheel.schedule (w : TimingWheel K) (key : K) (expiresAtMs : Nat) :
    TimingWheel K :=
  let slotIdx := (w.slotFor expiresAtMs).2
  match alookup w.index key with
  | some prevIdx =>
      if prevIdx ≠ slotIdx then
        let slots1 := w.slots.set prevIdx (slotRemove (w.slots.getD prevIdx []) key)
        { w with
          slots := slots1.set slotIdx (slotInsert (slots1.getD slotIdx []) key),
          index := ainsert w.index key slotIdx }
      else w
  | none =>
      { w with
        slots := w.slots.set slotIdx (slotInsert (w.slots.getD slotIdx []) key),
        index := ainsert w.index key slotIdx }

def TimingWheel.deschedule (w : TimingWheel K) (key : K) : TimingWheel K :=
  match alookup w.index key with
  | some slotIdx =>
      { w with
        index := aerase w.index key,
        slots := w.slots.set slotIdx (slotRemove (w.slots.getD slotIdx []) key) }
  | none => w

def TimingWheel.drainSlot (w : TimingWheel K) : TimingWheel K × List K :=
  let slotIdx := w.cursor &&& (w.size - 1)
  let keys := w.slots.getD slotIdx []
  ({ w with
      slots := w.slots.set slotIdx [],
      index := keys.foldl (fun ix k => aerase ix k) w.index },
    keys)

def TimingWheel.advanceLoop : TimingWheel K → Nat → List K → TimingWheel K × List K
  | w, 0, acc => (w, acc)
  | w, n + 1, acc =>
      let (w1, fired) := w.drainSlot
      TimingWheel.advanceLoop { w1 with cursor := w1.cursor + 1 } n (acc ++ fired)

def TimingWheel.advanceTo (w : TimingWheel K) (targetMs : Nat) :
    TimingWheel K × List K :=
  let targetTick := targetMs / w.tickMs
  w.advanceLoop (targetTick - w.cursor) []

/-! ### Cache engine (`apps/cache_node/src/core/services/cache/cache.rs`)

State: index (`DashMap<K, CacheEntry<V>>`), LRU list, timing wheel.  The
`AppClock` readings are passed in as a `now` parameter (milliseconds);
`AppTime::is_before_or_eq` is `<` or `=` on the millisecond value.  Each
operation returns its result together with the successor state. -/

structure CacheEntry (V : Type) : Type where
  value : V
  version : Nat
  expiresAt : Option Nat
deriving DecidableEq

def AppTime.isBeforeOrEq (a b : Nat) : Bool := a < b || a == b

structure Cache (K V : Type) : Type where
  map : List (K × CacheEntry V)
  lru : LruState K
  wheel : TimingWheel K
deriving DecidableEq

variable {V : Type}

def Cache.newWithCapacity (capacity wheelSize tickMs now : Nat) : Cache K V :=
  ⟨[], LruState.new capacity, TimingWheel.new wheelSize tickMs now⟩

def Cache.put (c : Cache K V) (now : Nat) (key : K) (value : V) (ttl : Option Nat) :
    Cache K V :=
  let expiresAt := ttl.map (fun ttlMs => now + ttlMs)
  let wheel1 :=
    match expiresAt with
    | some exp => c.wheel.schedule key exp
    | none => c.wheel.deschedule key
  let map1 :=
    match alookup c.map key with
    | some occ => ainsert c.map key ⟨value, occ.version + 1, expiresAt⟩
    | none => ainsert c.map key ⟨value, 1, expiresAt⟩
  let lru1 := c.lru.touch key
  let (toEvict, lru2) :=
    if lru1.overCapacity then lru1.popBack else (none, lru1)
  match toEvict with
  | some evictKey =>
      if evictKey ≠ key then
        { map := aerase map1 evictKey,
          lru := lru2,
          wheel := wheel1.deschedule evictKey }
      else { map := map1, lru := lru2, wheel := wheel1 }
  | none => { map := map1, lru := lru2, wheel := wheel1 }

def Cache.invalidate (c : Cache K V) (key : K) : Bool × Cache K V :=
  let wheel1 := c.wheel.deschedule key
  let removedMap := (alookup c.map key).isSome
  let map1 := aerase c.map key
  let (removedLru, lru1) := c.lru.removeKey key
  (removedMap || removedLru, ⟨map1, lru1, wheel1⟩)

def Cache.get (c : Cache K V) (now : Nat) (key : K) : Option V × Cache K V :=
  match alookup c.map key with
  | none => (none, c)
  | some entry =>
      if entry.expiresAt.elim false (fun exp => AppTime.isBeforeOrEq exp now) then
        (none, (c.invalidate key).2)
      else
        let lru0 := c.lru
        let lru1 := if lru0.contains key then lru0.touch key else lru0.pushFront key
        let (toEvict, lru2) :=
          if lru1.overCapacity then lru1.popBack else (none, lru1)
        match toEvict with
        | some evictKey =>
            if evictKey ≠ key then
              (some entry.value,
                { map := aerase c.map evictKey,
                  lru := lru2,
                  wheel := c.wheel.deschedule evictKey })
            else (some entry.value, { c with lru := lru2 })
        | none => (some entry.value, { c with lru := lru2 })

inductive CacheOp (K V : Type) : Type where
  | put (now : Nat) (key : K) (value : V) (ttl : Option Nat)
  | get (now : Nat) (key : K)
  | invalidate (key : K)

def Cache.applyOp (c : Cache K V) : CacheOp K V → Cache K V
  | .put now key value ttl => c.put now key value ttl
  | .get now key => (c.get now key).2
  | .invalidate key => (c.invalidate key).2

def Cache.run (c : Cache K V) : List (CacheOp K V) → Cache K V
  | [] => c
  | op :: ops => (c.applyOp op).run ops

/-- Invariant of the cache engine carried through `put`/`get`/`invalidate`:
some recency sequence `l` is represented by the LRU state, the index has no
duplicate keys, holds exactly the keys of `l`, and fits the capacity. -/
def CacheInv (c : Cache K V) : Prop :=
  0 < c.lru.capacity ∧
  ∃ l : List K, ReprLru c.lru l ∧ (akeys c.map).Nodup ∧
    c.map.length = l.length ∧ (∀ q, (alookup c.map q).isSome ↔ q ∈ l) ∧
    c.map.length ≤ c.lru.capacity

/-! ### Consistent-hash ring
(`apps/cache_master/src/infrastructure/adapters/services/dashmap_consistent_hasher_service.rs`)

The ring is an ordered map of `u64` vnode hashes to node ids plus the set
of real node ids; `hash_u64` (Rust's `DefaultHasher`) is a deterministic
function taken as a parameter.  `add_node` returns `false` without touching
the ring when the id is already marked real, else inserts `vnodes` virtual
hashes `hash("{id}#{i}")`.  The trait `ConsistentHasherService` also
declares `remove_node`, which this snapshot of the service does not define;
it is modelled from the spec below. -/

structure HasherState : Type where
  ring : List (Nat × String)
  realNodes : List String
  vnodes : Nat
deriving DecidableEq

def HasherState.new (vnodes : Nat) : HasherState := ⟨[], [], vnodes⟩

def insertVnodes (hashFn : String → Nat) (s : HasherState) (nodeId : String) :
    HasherState :=
  { s with
    ring := (List.range s.vnodes).foldl
      (fun r i => ainsert r (hashFn (nodeId ++ "#" ++ toString i)) nodeId) s.ring }

def HasherState.addNode (hashFn : String → Nat) (s : HasherState) (nodeId : String) :
    HasherState × Bool :=
  if nodeId ∈ s.realNodes then (s, false)
  else (insertVnodes hashFn { s with realNodes := nodeId :: s.realNodes } nodeId, true)

def HasherState.nodeExists (s : HasherState) (nodeId : String) : Bool :=
  nodeId ∈ s.realNodes

/-- Modelled from the spec: `remove_node(id) → bool` of the consistent-hash
ring (§4.6, "removes all `V` virtual hashes and the real-node mark").  The
`ConsistentHasherService` trait declares it and `RemoveNodeUseCase` calls
it, but the `DashmapConsistentHasherService` in `src/` does not define it.
It reports whether the real-node mark was present. -/
def HasherState.removeNode (s : HasherState) (nodeId : String) : Bool × HasherState :=
  (nodeId ∈ s.realNodes,
    { s with
      ring := s.ring.filter (fun p => p.2 ≠ nodeId),
      realNodes := s.realNodes.erase nodeId })

/-! ### Topology registry
(`apps/cache_master/src/infrastructure/adapters/services/tcp_network_service.rs`
and `apps/cache_master/src/infrastructure/app_state.rs`)

`nodes` maps a master id to its shard (the member ids of its group);
`registry` is the flat `AppNetworkState::nodes_registry` (the connection
handles are irrelevant here, so only the registered ids are kept); and
`masterOf` records each `AppNetworkNode`'s `master_id` cell.  `DashMap`
iteration order in the sweep branch of `remove_node` is unspecified in
Rust; the embedding sweeps shards in list order. -/

structure TcpState : Type where
  nodes : List (String × List String)
  registry : List String
  masterOf : List (String × Option String)
deriving DecidableEq

inductive AppErr : Type where
  | socketErr (msg : String)
  | firstConnectionEmpty
  | connectionError (msg : String)
  | nodeNotFound (msg : String)
  | badRequest (msg : String)
deriving DecidableEq

def TcpState.addMasterNode (t : TcpState) (nodeId : String) :
    Except AppErr (Bool × TcpState) :=
  if nodeId = "" then .error (.connectionError "Nodo maestro sin id")
  else if nodeId ∉ t.registry then
    .error (.connectionError ("Nodo no existe en registry: " ++ nodeId))
  else
    let nodes1 :=
      if (alookup t.nodes nodeId).isSome then t.nodes else ainsert t.nodes nodeId []
    let shard := (alookup nodes1 nodeId).getD []
    if nodeId ∈ shard then .ok (false, { t with nodes := nodes1 })
    else
      .ok (true,
        { t with
          nodes := ainsert nodes1 nodeId (nodeId :: shard),
          masterOf := ainsert t.masterOf nodeId (some nodeId) })

def sweepShards (nodeId : String) :
    List (String × List String) → Bool × List (String × List String)
  | [] => (false, [])
  | (m, shard) :: rest =>
      if nodeId ∈ shard then (true, (m, shard.erase nodeId) :: rest)
      else
        let (found, rest1) := sweepShards nodeId rest
        (found, (m, shard) :: rest1)

def TcpState.removeNode (t : TcpState) (nodeId : String) :
    Except AppErr (Bool × TcpState) :=
  let inRegistry := nodeId ∈ t.registry
  let step :
      Except AppErr (Bool × TcpState) :=
    if inRegistry then
      match (alookup t.masterOf nodeId).getD none with
      | some masterId =>
          match alookup t.nodes masterId with
          | some shard =>
              if nodeId ∈ shard then
                let shard1 := shard.erase nodeId
                let nodes1 :=
                  if shard1 = [] then aerase (ainsert t.nodes masterId shard1) masterId
                  else ainsert t.nodes masterId shard1
                .ok (true, { t with nodes := nodes1, masterOf := ainsert t.masterOf nodeId none })
              else .ok (false, t)
          | none => .ok (false, t)
      | none => .error (.connectionError "Es un nodo perdido segun nuestra logica")
    else
      let (found, nodes1) := sweepShards nodeId t.nodes
      if found then .ok (true, { t with nodes := nodes1 })
      else
        let foundShard := (alookup t.nodes nodeId).isSome
        .ok (foundShard, { t with nodes := aerase t.nodes nodeId })
  match step with
  | .error e => .error e
  | .ok (removedTopology, t1) =>
      let removedRegistry := nodeId ∈ t1.registry
      .ok (removedTopology || removedRegistry,
        { t1 with registry := t1.registry.erase nodeId })

/-- Modelled from the spec: `count_members(primary-id) → usize` (§4.7).  The
`NetworkService` trait declares `count_replica_nodes` and
`RemoveNodeUseCase` calls it, but the `TcpNetworkService` in `src/` does not
define it; per the spec it is the size of the group keyed by the id (0 when
the id keys no group). -/
def TcpState.countReplicaNodes (t : TcpState) (nodeId : String) : Nat :=
  ((alookup t.nodes nodeId).getD []).length

/-! ### Node lifecycle use cases
(`apps/cache_master/src/core/usecases/assign_node_use_case.rs`,
`apps/cache_master/src/core/usecases/remove_node_use_case.rs`)

`handle_master_insert` calls `hasher_service.add_node` and ignores its
returned `bool`, then surfaces `ConnectionError` only when `node_exists`
is false afterwards, else proceeds to `network_service.add_master_node`.
`RemoveNodeUseCase::execute` removes the id from the ring only when
`count_replica_nodes(id) ≤ 1`, then calls the network `remove_node` and
reports `NodeNotFound` when that returns false. -/

structure AssignOutput : Type where
  success : Bool
deriving DecidableEq

def handleMasterInsert (hashFn : String → Nat) (h : HasherState) (t : TcpState)
    (nodeId : String) : Except AppErr (AssignOutput × HasherState × TcpState) :=
  let h1 := (h.addNode hashFn nodeId).1
  if ¬ h1.nodeExists nodeId then
    .error (.connectionError "No se pudo agregar el nodo")
  else
    match t.addMasterNode nodeId with
    | .error e => .error e
    | .ok (success, t1) => .ok (⟨success⟩, h1, t1)

structure RemoveOutput : Type where
  success : Bool
deriving DecidableEq

def removeNodeExecute (h : HasherState) (t : TcpState) (nodeId : String) :
    Except AppErr (RemoveOutput × HasherState × TcpState) :=
  let replicaCount := t.countReplicaNodes nodeId
  let (hasherRemoveResult, h1) :=
    if replicaCount ≤ 1 then h.removeNode nodeId else (false, h)
  match t.removeNode nodeId with
  | .error e => .error e
  | .ok (networkRemoveResult, t1) =>
      if ¬ networkRemoveResult then
        .error (.nodeNotFound (nodeId ++ " in network service"))
      else .ok (⟨hasherRemoveResult && networkRemoveResult⟩, h1, t1)

/-! ### Routed PUT
(`apps/cache_master/src/core/usecases/put_key_use_case.rs` and
`TcpNetworkService::request_put_key`)

`PutKeyUseCase::execute` computes `expires_at = ttl.map(|t| now + t)` and
hands it to the `NetworkService` trait's `request_put_key(node_id, key,
value, ttl)`.  The `TcpNetworkService` implementation of `request_put_key`
in `src/` however has no TTL parameter at all: it builds
`RequestDataInput { action: "PUT", payload: format!("{} \"{}\"", key, value) }`
and races it across the group, succeeding iff the winning response is a
success.  `ResponseData::is_success` is used but not defined in this
snapshot's `response/data.rs`; per the spec (§3, "`2xx` is success") it is
`200 ≤ code < 300`. -/

structure RequestInput : Type where
  action : String
  payload : String
deriving DecidableEq

def requestPutKeyInput (key value : String) : RequestInput :=
  ⟨"PUT", key ++ " \"" ++ value ++ "\""⟩

def putExpiresAt (now : Nat) (ttl : Option Nat) : Option Nat :=
  ttl.map (fun ttlMs => now + ttlMs)

/-- Modelled from the spec: `ResponseData::is_success` — the snapshot's
`response/data.rs` does not define it although `request_put_key` calls it;
per the spec a `2xx` code is success. -/
def isSuccessCode (code : Nat) : Bool := 200 ≤ code && code < 300

def requestPutKeyResult (winnerCode : Nat) : Except AppErr Bool :=
  if isSuccessCode winnerCode then .ok true
  else .error (.connectionError "Error en PUT")

/-! ## Lemmas about association lists -/

theorem alookup_map_replace (l : List (K × A)) (key q : K) (v : A) :
    alookup (l.map (fun p => if p.1 = key then (key, v) else p)) q =
      if key = q then (alookup l key).map (fun _ => v) else alookup l q := by
  induction l with
  | nil => simp [alookup]
  | cons p t ih =>
    obtain ⟨a, b⟩ := p
    rw [List.map_cons]
    by_cases ha : a = key
    · rw [if_pos (show (a, b).1 = key from ha)]
      subst ha
      by_cases hq : a = q
      · subst hq
        simp [alookup]
      · simp [alookup, hq, ih]
    · rw [if_neg (show ¬ (a, b).1 = key from ha)]
      by_cases hq : a = q
      · subst hq
        have hka : ¬ key = a := fun hh => ha hh.symm
        simp [alookup, hka]
      · simp [alookup, hq, ih, ha]

theorem akeys_map_replace (l : List (K × A)) (key : K) (v : A) :
    akeys (l.map (fun p => if p.1 = key then (key, v) else p)) = akeys l := by
  induction l with
  | nil => rfl
  | cons p t ih =>
    obtain ⟨a, b⟩ := p
    by_cases ha : a = key
    · subst ha
      simp [akeys] at ih ⊢
      exact ih
    · simp [akeys, ha] at ih ⊢
      exact ih

theorem alookup_ainsert_self (l : List (K × A)) (key : K) (v : A) :
    alookup (ainsert l key v) key = some v := by
  unfold ainsert
  split
  · next h =>
    rw [alookup_map_replace, if_pos rfl]
    rcases Option.isSome_iff_exists.mp h with ⟨w, hw⟩
    simp [hw]
  · simp [alookup]

theorem alookup_ainsert_ne (l : List (K × A)) (key q : K) (v : A) (h : key ≠ q) :
    alookup (ainsert l key v) q = alookup l q := by
  unfold ainsert
  split
  · rw [alookup_map_replace, if_neg h]
  · simp [alookup, h]

theorem alookup_aerase_self (l : List (K × A)) (key : K) :
    alookup (aerase l key) key = none := by
  induction l with
  | nil => rfl
  | cons p t ih =>
    obtain ⟨a, b⟩ := p
    by_cases ha : a = key
    · subst ha
      simpa [aerase, List.filter_cons] using ih
    · simp [aerase, List.filter_cons, ha, alookup] at ih ⊢
      exact ih

theorem alookup_aerase_ne (l : List (K × A)) (key q : K) (h : key ≠ q) :
    alookup (aerase l key) q = alookup l q := by
  induction l with
  | nil => rfl
  | cons p t ih =>
    obtain ⟨a, b⟩ := p
    by_cases ha : a = key
    · subst ha
      have haq : ¬ a = q := fun hh => h (hh ▸ rfl)
      simp [aerase, List.filter_cons, alookup, haq] at ih ⊢
      exact ih
    · by_cases hq : a = q
      · subst hq
        simp [aerase, List.filter_cons, alookup, ha]
      · simp [aerase, List.filter_cons, alookup, ha, hq] at ih ⊢
        exact ih

theorem alookup_updLink (l : List (K × A)) (key q : K) (f : A → A) :
    alookup (updLink l key f) q =
      if key = q then (alookup l q).map f else alookup l q := by
  induction l with
  | nil => simp [updLink, alookup]
  | cons p t ih =>
    obtain ⟨a, b⟩ := p
    rw [updLink, List.map_cons]
    by_cases ha : a = key
    · rw [if_pos (show (a, b).1 = key from ha)]
      subst ha
      by_cases hq : a = q
      · subst hq
        simp [alookup, updLink, ih]
      · simp only [alookup, hq, if_neg, if_false]
        simpa [updLink, hq] using ih
    · rw [if_neg (show ¬ (a, b).1 = key from ha)]
      by_cases hq : a = q
      · subst hq
        have hka : ¬ key = a := fun hh => ha hh.symm
        simp [alookup, hka]
      · simp only [alookup, hq, if_neg, if_false]
        simpa [updLink] using ih

theorem alookup_isSome_iff_mem (l : List (K × A)) (q : K) :
    (alookup l q).isSome ↔ q ∈ akeys l := by
  induction l with
  | nil => simp [alookup, akeys]
  | cons p t ih =>
    by_cases hp : p.1 = q
    · simp [alookup, akeys, hp]
    · simpa [alookup, akeys, hp, Ne.symm hp] using ih

theorem akeys_ainsert (l : List (K × A)) (key : K) (v : A) (q : K) :
    q ∈ akeys (ainsert l key v) ↔ q = key ∨ q ∈ akeys l := by
  unfold ainsert
  split
  · next h =>
    rw [akeys_map_replace]
    constructor
    · exact Or.inr
    · rintro (rfl | hq)
      · exact (alookup_isSome_iff_mem l q).mp h
      · exact hq
  · simp [akeys]

/-! ## Lemmas about decimal rendering and parsing -/

theorem digitChar_toNat (n : Nat) (h : n ≤ 9) : (digitChar n).toNat = 48 + n := by
  interval_cases n <;> decide

theorem isDigitChar_digitChar (n : Nat) (h : n ≤ 9) :
    isDigitChar (digitChar n) = true := by
  interval_cases n <;> decide

theorem isDigitChar_ne_space_quote (c : Char) (h : isDigitChar c = true) :
    c ≠ ' ' ∧ c ≠ '"' := by
  constructor <;> rintro rfl <;> revert h <;> decide

theorem natToCharsAux_irrel :
    ∀ fuel1 fuel2 n acc, n < fuel1 → n < fuel2 →
      natToCharsAux fuel1 n acc = natToCharsAux fuel2 n acc := by
  intro fuel1
  induction fuel1 with
  | zero => exact fun fuel2 n acc h1 _ => absurd h1 (Nat.not_lt_zero n)
  | succ f ih =>
    intro fuel2 n acc h1 h2
    cases fuel2 with
    | zero => exact absurd h2 (Nat.not_lt_zero n)
    | succ f2 =>
      by_cases hn : n < 10
      · simp [natToCharsAux, hn]
      · have hd : n / 10 < n := Nat.div_lt_self (by omega) (by omega)
        simp only [natToCharsAux, hn, if_false]
        exact ih f2 (n / 10) _ (by omega) (by omega)

theorem natToCharsAux_acc :
    ∀ fuel n acc, natToCharsAux fuel n acc = natToCharsAux fuel n [] ++ acc := by
  intro fuel
  induction fuel with
  | zero => simp [natToCharsAux]
  | succ f ih =>
    intro n acc
    by_cases hn : n < 10
    · simp [natToCharsAux, hn]
    · simp only [natToCharsAux, hn, if_false]
      rw [ih (n / 10) (digitChar (n % 10) :: acc), ih (n / 10) [digitChar (n % 10)]]
      simp

theorem natToChars_base (n : Nat) (h : n < 10) : natToChars n = [digitChar n] := by
  simp [natToChars, natToCharsAux, h]

theorem natToChars_step (n : Nat) (h : ¬ n < 10) :
    natToChars n = natToChars (n / 10) ++ [digitChar (n % 10)] := by
  have hd : n / 10 < n := Nat.div_lt_self (by omega) (by omega)
  unfold natToChars
  rw [show natToCharsAux (n + 1) n [] =
        natToCharsAux n (n / 10) [digitChar (n % 10)] from by
      simp [natToCharsAux, h]]
  rw [natToCharsAux_irrel n (n / 10 + 1) (n / 10) _ (by omega) (by omega)]
  rw [natToCharsAux_acc]

theorem natToChars_digits (n : Nat) : ∀ c ∈ natToChars n, isDigitChar c = true := by
  induction n using Nat.strong_induction_on with
  | _ n ih =>
    by_cases h : n < 10
    · rw [natToChars_base n h]
      intro c hc
      rw [List.mem_singleton] at hc
      subst hc
      exact isDigitChar_digitChar n (by omega)
    · rw [natToChars_step n h]
      intro c hc
      rcases List.mem_append.mp hc with hc | hc
      · exact ih (n / 10) (Nat.div_lt_self (by omega) (by omega)) c hc
      · rw [List.mem_singleton] at hc
        subst hc
        exact isDigitChar_digitChar _ (Nat.le_of_lt_succ (Nat.mod_lt n (by omega)))

theorem natToChars_ne_nil (n : Nat) : natToChars n ≠ [] := by
  by_cases h : n < 10
  · rw [natToChars_base n h]
    simp
  · rw [natToChars_step n h]
    simp

theorem digitsVal_append_digit (xs : List Char) (c : Char) :
    digitsVal (xs ++ [c]) = digitsVal xs * 10 + (c.toNat - 48) := by
  simp [digitsVal, List.foldl_append]

theorem digitsVal_natToChars (n : Nat) : digitsVal (natToChars n) = n := by
  induction n using Nat.strong_induction_on with
  | _ n ih =>
    by_cases h : n < 10
    · rw [natToChars_base n h]
      simp [digitsVal, digitChar_toNat n (by omega)]
    · rw [natToChars_step n h, digitsVal_append_digit,
        ih (n / 10) (Nat.div_lt_self (by omega) (by omega)),
        digitChar_toNat (n % 10) (Nat.le_of_lt_succ (Nat.mod_lt n (by omega)))]
      omega

theorem parseU16_natToChars (n : Nat) (h : n ≤ 65535) :
    parseU16 (natToChars n) = some n := by
  have hall := natToChars_digits n
  have hne := natToChars_ne_nil n
  have hcore : parseU16Core (natToChars n) = some n := by
    unfold parseU16Core
    rw [if_pos ⟨hne, List.all_eq_true.mpr hall, by rw [digitsVal_natToChars]; exact h⟩,
      digitsVal_natToChars]
  unfold parseU16
  split
  · next rest heq =>
    exfalso
    have : isDigitChar '+' = true := hall '+' (heq ▸ List.mem_cons_self _ _)
    revert this
    decide
  · exact hcore

/-! ## Lemmas about the tokenizers -/

theorem takeWhile_all_append {α : Type} (p : α → Bool) (t rest : List α) (c0 : α)
    (h : ∀ c ∈ t, p c = true) (hc0 : p c0 = false) :
    (t ++ c0 :: rest).takeWhile p = t := by
  induction t with
  | nil => simp [List.takeWhile_cons, hc0]
  | cons a t ih =>
    simp [List.takeWhile_cons, h a (List.mem_cons_self a t),
      ih fun c hc => h c (List.mem_cons_of_mem a hc)]

theorem dropWhile_all_append {α : Type} (p : α → Bool) (t rest : List α) (c0 : α)
    (h : ∀ c ∈ t, p c = true) (hc0 : p c0 = false) :
    (t ++ c0 :: rest).dropWhile p = c0 :: rest := by
  induction t with
  | nil => simp [List.dropWhile_cons, hc0]
  | cons a t ih =>
    simp [List.dropWhile_cons, h a (List.mem_cons_self a t),
      ih fun c hc => h c (List.mem_cons_of_mem a hc)]

theorem rustTrim_wrap (c0 : Char) (xs : List Char) (h : isRustWs c0 = false) :
    rustTrim ((c0 :: xs) ++ ['"', '\n']) = (c0 :: xs) ++ ['"'] := by
  unfold rustTrim
  rw [show ((c0 :: xs) ++ ['"', '\n']) = c0 :: (xs ++ ['"', '\n']) from by simp]
  rw [List.dropWhile_cons_of_neg (by simp [h])]
  rw [show (c0 :: (xs ++ ['"', '\n'])).reverse = '\n' :: '"' :: (c0 :: xs).reverse from by
    simp]
  rw [List.dropWhile_cons_of_pos (by decide), List.dropWhile_cons_of_neg (by decide)]
  simp

theorem trimEndCRLF_concat_quote (xs : List Char) :
    trimEndCRLF (xs ++ ['"']) = xs ++ ['"'] := by
  unfold trimEndCRLF
  rw [show (xs ++ ['"']).reverse = '"' :: xs.reverse from by simp]
  rw [List.dropWhile_cons_of_neg (by decide)]
  simp

theorem coreReadToken_space (l : List Char) :
    coreReadToken (' ' :: l) = coreReadToken l := rfl

theorem coreReadToken_unquoted (t rest : List Char) (ht : tokenOk t) :
    coreReadToken (t ++ ' ' :: rest) = some (t, ' ' :: rest) := by
  obtain ⟨hne, hsp, hq⟩ := ht
  cases t with
  | nil => exact absurd rfl hne
  | cons c0 t1 =>
    have hc0sp : ¬ c0 = ' ' := fun hh => hsp (hh ▸ List.mem_cons_self c0 t1)
    have hc0q : ¬ c0 = '"' := fun hh => hq (hh ▸ List.mem_cons_self c0 t1)
    have hall : ∀ c ∈ c0 :: t1, (c != ' ') = true := by
      intro c hc
      have hcne : c ≠ ' ' := fun hh => hsp (hh ▸ hc)
      simp [hcne]
    have hdw : ((c0 :: t1) ++ ' ' :: rest).dropWhile (fun c => c == ' ')
        = (c0 :: t1) ++ ' ' :: rest := by
      rw [show ((c0 :: t1) ++ ' ' :: rest) = c0 :: (t1 ++ ' ' :: rest) from by simp]
      exact List.dropWhile_cons_of_neg (by simp [hc0sp])
    unfold coreReadToken
    rw [hdw]
    rw [show ((c0 :: t1) ++ ' ' :: rest) = c0 :: (t1 ++ ' ' :: rest) from by simp]
    simp only [if_neg hc0q]
    rw [show c0 :: (t1 ++ ' ' :: rest) = (c0 :: t1) ++ ' ' :: rest from by simp]
    rw [takeWhile_all_append _ _ _ _ hall (by decide),
      dropWhile_all_append _ _ _ _ hall (by decide)]

theorem smGo_unquoted (t : List Char) (rest : List Char) (acc : List Char)
    (h : ∀ c ∈ t, c ≠ ' ' ∧ c ≠ '"') :
    smGo (t ++ ' ' :: rest) (.unq acc) = (acc.reverse ++ t) :: smGo rest .top := by
  induction t generalizing acc with
  | nil => simp [smGo]
  | cons c t ih =>
    have hc := h c (List.mem_cons_self c t)
    rw [show ((c :: t) ++ ' ' :: rest) = c :: (t ++ ' ' :: rest) from by simp]
    simp only [smGo]
    rw [if_neg hc.1, if_neg hc.2]
    rw [ih (c :: acc) fun d hd => h d (List.mem_cons_of_mem c hd)]
    simp

theorem smGo_top_token (t rest : List Char) (ht : t ≠ [] ∧ ∀ c ∈ t, c ≠ ' ' ∧ c ≠ '"') :
    smGo (t ++ ' ' :: rest) .top = t :: smGo rest .top := by
  obtain ⟨hne, h⟩ := ht
  cases t with
  | nil => exact absurd rfl hne
  | cons c0 t1 =>
    have hc0 := h c0 (List.mem_cons_self c0 t1)
    rw [show ((c0 :: t1) ++ ' ' :: rest) = c0 :: (t1 ++ ' ' :: rest) from by simp]
    simp only [smGo]
    rw [if_neg hc0.1, if_neg hc0.2]
    rw [smGo_unquoted t1 rest [c0] fun d hd => h d (List.mem_cons_of_mem c0 hd)]
    simp

theorem noQuoteSpace_cons (c : Char) (p : List Char)
    (h : noQuoteSpace (c :: p) = true) :
    noQuoteSpace p = true ∧ ¬ (c = '"' ∧ p.head? = some ' ') := by
  by_cases hc : c = '"' ∧ p.head? = some ' '
  · simp [noQuoteSpace, hc] at h
  · simp [noQuoteSpace, hc] at h
    exact ⟨h, hc⟩

theorem smGo_quoted_final (p : List Char) (acc : List Char)
    (h : noQuoteSpace p = true) :
    smGo (p ++ ['"']) (.inq acc) = [acc.reverse ++ p] := by
  induction p generalizing acc with
  | nil => simp [smGo]
  | cons c p ih =>
    obtain ⟨hp, hc⟩ := noQuoteSpace_cons c p h
    have hcond : ¬ (c = '"' ∧ ((p ++ ['"']) = [] ∨ (p ++ ['"']).head? = some ' ')) := by
      rintro ⟨rfl, hrest⟩
      rcases hrest with hrest | hrest
      · simp at hrest
      · cases p with
        | nil => simp at hrest
        | cons c2 p2 =>
          simp at hrest
          exact hc ⟨rfl, by simp [hrest]⟩
    rw [show ((c :: p) ++ ['"']) = c :: (p ++ ['"']) from by simp]
    simp only [smGo]
    rw [if_neg hcond]
    rw [ih (c :: acc) hp]
    simp

theorem smGo_top_quoted (p : List Char) (h : noQuoteSpace p = true) :
    smGo ('"' :: (p ++ ['"'])) .top = [p] := by
  simp only [smGo]
  rw [if_neg (by decide), if_pos (by decide)]
  rw [smGo_quoted_final p [] h]
  simp

theorem tokenOk_all (t : List Char) (h : tokenOk t) :
    t ≠ [] ∧ ∀ c ∈ t, c ≠ ' ' ∧ c ≠ '"' :=
  ⟨h.1, fun c hc => ⟨fun hh => h.2.1 (hh ▸ hc), fun hh => h.2.2 (hh ▸ hc)⟩⟩

theorem coreSplitMessage_three (t1 t2 t3 payload : List Char)
    (h1 : tokenOk t1) (h2 : tokenOk t2) (h3 : tokenOk t3) :
    coreSplitMessage (t1 ++ ' ' :: (t2 ++ ' ' :: (t3 ++ ' ' :: '"' :: (payload ++ ['"']))))
      = some [t1, t2, t3, payload] := by
  have t1r := coreReadToken_unquoted t1 (t2 ++ ' ' :: (t3 ++ ' ' :: '"' :: (payload ++ ['"']))) h1
  have t2r : coreReadToken (' ' :: (t2 ++ ' ' :: (t3 ++ ' ' :: '"' :: (payload ++ ['"']))))
      = some (t2, ' ' :: (t3 ++ ' ' :: '"' :: (payload ++ ['"']))) := by
    rw [coreReadToken_space]
    exact coreReadToken_unquoted t2 _ h2
  have t3r : coreReadToken (' ' :: (t3 ++ ' ' :: '"' :: (payload ++ ['"'])))
      = some (t3, ' ' :: '"' :: (payload ++ ['"'])) := by
    rw [coreReadToken_space]
    exact coreReadToken_unquoted t3 _ h3
  unfold coreSplitMessage
  simp only [coreTokens, t1r, t2r, t3r]
  rw [List.dropWhile_cons_of_pos (by decide), List.dropWhile_cons_of_neg (by decide)]
  rw [if_neg (by simp)]
  rw [show ('"' :: (payload ++ ['"'])) = ('"' :: payload) ++ ['"'] from by simp]
  rw [trimEndCRLF_concat_quote]
  rw [if_pos ⟨by simp, by rw [List.getLast?_concat]⟩]
  rw [if_neg (by simp)]
  rw [show (('"' :: payload) ++ ['"']).drop 1 = payload ++ ['"'] from by simp]
  rw [List.dropLast_concat]
  simp

theorem splitMessage_three (t1 t2 t3 payload : List Char)
    (h1 : tokenOk t1) (h2 : tokenOk t2) (h3 : tokenOk t3)
    (hp : noQuoteSpace payload = true) :
    splitMessage (t1 ++ ' ' :: (t2 ++ ' ' :: (t3 ++ ' ' :: '"' :: (payload ++ ['"']))))
      = [t1, t2, t3, payload] := by
  unfold splitMessage
  rw [smGo_top_token t1 _ (tokenOk_all t1 h1)]
  rw [smGo_top_token t2 _ (tokenOk_all t2 h2)]
  rw [smGo_top_token t3 _ (tokenOk_all t3 h3)]
  rw [smGo_top_quoted payload hp]

/-! ## C7 — frame round-trip -/

/-- C7: round-trip of well-formed frames.  For a `REQ` frame whose rid and
action are opaque tokens (nonempty, no space, no quote) and whose payload is
arbitrary, and for a `RES` frame whose rid is such a token, whose code fits
in `u16`, and whose payload never has a `"` directly followed by a space,
parsing the encoded, newline-trimmed line returns exactly the original rid,
action/code and payload. -/
theorem codec_roundtrip (req : RequestData) (res : ResponseData)
    (hid : tokenOk req.id) (hact : tokenOk req.action)
    (hrid : tokenOk res.reqId) (hcode : res.code ≤ 65535)
    (hpay : noQuoteSpace res.payload = true) :
    RequestData.parse (rustTrim req.toChars) = some (.ok req) ∧
      ResponseData.parse (rustTrim res.toChars) = .ok res := by
  obtain ⟨id, action, payload⟩ := req
  obtain ⟨rid, code, rpayload⟩ := res
  constructor
  · have htrim : rustTrim (RequestData.toChars ⟨id, action, payload⟩)
        = ['R', 'E', 'Q'] ++ ' ' :: (id ++ ' ' :: (action ++ ' ' :: '"' :: (payload ++ ['"']))) := by
      rw [show RequestData.toChars ⟨id, action, payload⟩
          = ('R' :: ('E' :: 'Q' :: ' ' :: (id ++ ' ' :: (action ++ ' ' :: '"' :: payload))))
              ++ ['"', '\n'] from by simp [RequestData.toChars]]
      rw [rustTrim_wrap _ _ (by decide)]
      simp
    rw [htrim]
    have hcs : coreSplitMessage
        ('R' :: 'E' :: 'Q' :: ' ' :: (id ++ ' ' :: (action ++ ' ' :: '"' :: (payload ++ ['"']))))
        = some [['R', 'E', 'Q'], id, action, payload] := by
      simpa using coreSplitMessage_three ['R', 'E', 'Q'] id action payload (by decide) hid hact
    simp [RequestData.parse, hcs, hact.1, hid.1]
  · have htrim : rustTrim (ResponseData.toChars ⟨rid, code, rpayload⟩)
        = ['R', 'E', 'S'] ++ ' ' :: (rid ++ ' ' :: (natToChars code ++ ' ' :: '"' :: (rpayload ++ ['"']))) := by
      rw [show ResponseData.toChars ⟨rid, code, rpayload⟩
          = ('R' :: ('E' :: 'S' :: ' ' :: (rid ++ ' ' :: (natToChars code ++ ' ' :: '"' :: rpayload))))
              ++ ['"', '\n'] from by simp [ResponseData.toChars]]
      rw [rustTrim_wrap _ _ (by decide)]
      simp
    rw [htrim]
    have hdigits : tokenOk (natToChars code) := by
      refine ⟨natToChars_ne_nil code, ?_, ?_⟩
      · intro hmem
        exact (isDigitChar_ne_space_quote ' ' (natToChars_digits code ' ' hmem)).1 rfl
      · intro hmem
        exact (isDigitChar_ne_space_quote '"' (natToChars_digits code '"' hmem)).2 rfl
    have hsm : splitMessage
        ('R' :: 'E' :: 'S' :: ' ' :: (rid ++ ' ' :: (natToChars code ++ ' ' :: '"' :: (rpayload ++ ['"']))))
        = [['R', 'E', 'S'], rid, natToChars code, rpayload] := by
      simpa using splitMessage_three ['R', 'E', 'S'] rid (natToChars code) rpayload
        (by decide) hrid hdigits hpay
    simp [ResponseData.parse, hsm, parseU16_natToChars code hcode]

/-- C7 witness: the round-trip evaluated on the concrete frames
`REQ 17 PUT "k \"v\" 500"` and `RES 17 200 "a b"`. -/
theorem codec_roundtrip_witness :
    RequestData.parse (rustTrim (RequestData.toChars
        ⟨['1', '7'], ['P', 'U', 'T'], ['k', ' ', '"', 'v', '"', ' ', '5', '0', '0']⟩))
      = some (.ok ⟨['1', '7'], ['P', 'U', 'T'], ['k', ' ', '"', 'v', '"', ' ', '5', '0', '0']⟩) ∧
    ResponseData.parse (rustTrim (ResponseData.toChars ⟨['1', '7'], 200, ['a', ' ', 'b']⟩))
      = .ok ⟨['1', '7'], 200, ['a', ' ', 'b']⟩ :=
  codec_roundtrip ⟨['1', '7'], ['P', 'U', 'T'], ['k', ' ', '"', 'v', '"', ' ', '5', '0', '0']⟩
    ⟨['1', '7'], 200, ['a', ' ', 'b']⟩
    (by decide) (by decide) (by decide) (by decide) (by decide)

/-! ## C10 — totality of the line parser -/

/-- C10 (evaluation at the failing input): the claim says `parse` is total
and never panics, but on the line `REQ 1 PING "` the core `split_message`
strips the outer-quote pair off the one-character payload slice `"` and then
evaluates `&input[s..e]` with `s = e + 1`, which panics in Rust (the
embedding returns `none` for that slice).  `parse_line` reaches it because
the line starts with `REQ `. -/
theorem parse_line_panics_on_lone_quote :
    parseLine "REQ 1 PING \"".toList = none := by decide

/-! ## C4 — socket multiplexer pending map -/

/-- C4 (claim as stated, refuted at a concrete input): on a fresh socket, a
`request` whose outcome is a timeout leaves the allocated RID "1" in
`pending` — the RID is not evicted, contrary to the claim that all four
outcomes evict it. -/
theorem socket_timeout_keeps_rid :
    (SocketState.requestStep ⟨[], [], 1⟩ .timesOut).2 = .error (.timeout [] ['1']) ∧
      alookup (SocketState.requestStep ⟨[], [], 1⟩ .timesOut).1.pending ['1'] = some () := by
  decide

/-- C4 (amended): `Socket::request` registers the fresh RID in `pending`,
and the RID is evicted only in the outcome where a matching `RES` arrives
(`handle_response` removes it); after a `Timeout`, `WriteChannelClosed` or
`ResponseChannelClosed` outcome the RID entry remains in `pending`. -/
theorem socket_pending_eviction (s : SocketState) (o : ReqOutcome) :
    (alookup (s.requestStep o).1.pending (natToChars s.counter)).isSome = !o.isRes := by
  cases o with
  | resArrives payload =>
      simp [SocketState.requestStep, SocketState.getNewId, SocketState.handleResponse,
        ReqOutcome.isRes, alookup_ainsert_self, alookup_aerase_self]
  | timesOut =>
      simp [SocketState.requestStep, SocketState.getNewId, ReqOutcome.isRes,
        alookup_ainsert_self]
  | writeClosed =>
      simp [SocketState.requestStep, SocketState.getNewId, ReqOutcome.isRes,
        alookup_ainsert_self]
  | waiterDropped =>
      simp [SocketState.requestStep, SocketState.getNewId, ReqOutcome.isRes,
        alookup_ainsert_self]

/-! ## C6 — routed PUT drops the TTL -/

/-- C6 (evaluation at the failing input): for the routed
`PUT k v (ttl = 500 ms)` the `TcpNetworkService` dispatches action `PUT`
with payload `k "v"` — the TTL never appears in the dispatched request
(`request_put_key` in `src/` has no TTL parameter, contradicting the
`NetworkService` trait it implements, to which the use case passes
`expires_at = now + ttl`).  The success test itself follows the spec:
a winning `2xx` response yields `Ok(true)`, a non-2xx an error. -/
theorem routed_put_payload_has_no_ttl :
    requestPutKeyInput "k" "v" = ⟨"PUT", "k \"v\""⟩ ∧
      putExpiresAt 1000 (some 500) = some 1500 ∧
      requestPutKeyResult 200 = .ok true ∧
      requestPutKeyResult 500 = .error (.connectionError "Error en PUT") := by
  refine ⟨rfl, rfl, ?_, ?_⟩ <;> decide

/-! ## C3 — timing wheel drain -/

theorem getD_set_ne {α : Type} (l : List α) (i j : Nat) (x : α) (d : α) (h : i ≠ j) :
    (l.set i x).getD j d = l.getD j d := by
  simp [List.getD, List.getElem?_set_ne h]

theorem getD_set_self {α : Type} (l : List α) (i : Nat) (x : α) (d : α)
    (h : i < l.length) :
    (l.set i x).getD i d = x := by
  simp [List.getD, List.getElem?_set_self, h]

theorem mem_slotInsert_self (l : List K) (key : K) : key ∈ slotInsert l key := by
  unfold slotInsert
  split
  · assumption
  · exact List.mem_cons_self key l

theorem schedule_cursor (w : TimingWheel K) (k : K) (t : Nat) :
    (w.schedule k t).cursor = w.cursor := by
  unfold TimingWheel.schedule
  split
  · next prevIdx _ =>
    by_cases h : prevIdx ≠ (w.slotFor t).2 <;> simp [h]
  · rfl

theorem schedule_size (w : TimingWheel K) (k : K) (t : Nat) :
    (w.schedule k t).size = w.size := by
  unfold TimingWheel.schedule
  split
  · next prevIdx _ =>
    by_cases h : prevIdx ≠ (w.slotFor t).2 <;> simp [h]
  · rfl

theorem schedule_tickMs (w : TimingWheel K) (k : K) (t : Nat) :
    (w.schedule k t).tickMs = w.tickMs := by
  unfold TimingWheel.schedule
  split
  · next prevIdx _ =>
    by_cases h : prevIdx ≠ (w.slotFor t).2 <;> simp [h]
  · rfl

theorem schedule_slots_length (w : TimingWheel K) (k : K) (t : Nat) :
    (w.schedule k t).slots.length = w.slots.length := by
  unfold TimingWheel.schedule
  split
  · next prevIdx _ =>
    by_cases h : prevIdx ≠ (w.slotFor t).2 <;> simp [h]
  · simp

theorem schedule_mem_slot (w : TimingWheel K) (k : K) (t : Nat)
    (hinv : ∀ q i, alookup w.index q = some i → q ∈ w.slots.getD i [])
    (hs : (w.slotFor t).2 < w.slots.length) :
    k ∈ (w.schedule k t).slots.getD (w.slotFor t).2 [] := by
  unfold TimingWheel.schedule
  split
  · next prevIdx hprev =>
    dsimp only
    split
    · next hne =>
      have hlen : ((w.slots.set prevIdx (slotRemove (w.slots.getD prevIdx []) k))).length
          = w.slots.length := by simp
      rw [getD_set_self _ _ _ _ (by rw [hlen]; exact hs)]
      exact mem_slotInsert_self _ k
    · next hne =>
      have heq : prevIdx = (w.slotFor t).2 := by
        by_contra hne2
        exact hne hne2
      exact heq ▸ hinv k prevIdx hprev
  · dsimp only
    rw [getD_set_self _ _ _ _ hs]
    exact mem_slotInsert_self _ k

theorem advanceLoop_acc_mem (k : K) :
    ∀ (n : Nat) (w : TimingWheel K) (acc : List K), k ∈ acc →
      k ∈ (w.advanceLoop n acc).2 := by
  intro n
  induction n with
  | zero => intro w acc h; exact h
  | succ n ih =>
    intro w acc h
    unfold TimingWheel.advanceLoop
    exact ih _ _ (List.mem_append_left _ h)

theorem advanceLoop_fires (k : K) (s : Nat) :
    ∀ (n : Nat) (w : TimingWheel K) (acc : List K),
      (∃ j, j < n ∧ (w.cursor + j) &&& (w.size - 1) = s) →
      k ∈ w.slots.getD s [] → s < w.slots.length →
      k ∈ (w.advanceLoop n acc).2 := by
  intro n
  induction n with
  | zero =>
    rintro w acc ⟨j, hj, _⟩ _ _
    omega
  | succ n ih =>
    rintro w acc ⟨j, hj, hjs⟩ hk hs
    unfold TimingWheel.advanceLoop TimingWheel.drainSlot
    by_cases hcur : w.cursor &&& (w.size - 1) = s
    · apply advanceLoop_acc_mem
      exact List.mem_append_right _ (by rw [hcur]; exact hk)
    · have hj0 : j ≠ 0 := fun h0 => hcur (by simpa [h0] using hjs)
      obtain ⟨jp, rfl⟩ : ∃ jp, j = jp + 1 := ⟨j - 1, by omega⟩
      apply ih
      · exact ⟨jp, by omega, by rw [show w.cursor + 1 + jp = w.cursor + (jp + 1) from by omega]; exact hjs⟩
      · rw [getD_set_ne _ _ _ _ _ hcur]
        exact hk
      · simpa using hs

def WheelIndexInv (w : TimingWheel K) : Prop :=
  ∀ q i, alookup w.index q = some i → q ∈ w.slots.getD i []

/-- C3 (claim as stated, refuted at a concrete input): on a wheel with 16
slots and a 10 ms tick starting at 0, `schedule(7, 12)` then
`advance_to(15, …)` with `15 ≥ 12` invokes the callback for nothing at all —
the drain loop runs `while cursor < 15/10 = 1` and only drains slot 0, while
the key sits in slot `12/10 = 1`; the spec's `t' ≥ t` is not enough when
both times fall in the same tick. -/
theorem wheel_advance_same_tick_misses :
    (12 ≤ 15) ∧
      7 ∉ (((TimingWheel.new (K := Nat) 16 10 0).schedule 7 12).advanceTo 15).2 ∧
      (((TimingWheel.new (K := Nat) 16 10 0).schedule 7 12).advanceTo 15).2 = [] := by
  decide

/-- C3 (amended): after `schedule(k, t)` on a wheel whose inverse index is
consistent with its slots, `advance_to(t', …)` invokes the callback for `k`
whenever the wheel's cursor has not yet passed `t`'s tick
(`cursor ≤ t / tick_ms`) and `t'` lies in a strictly later tick
(`t / tick_ms < t' / tick_ms`) — the inclusive `t' ≥ t` of the claim only
suffices when the tick index strictly advances. -/
theorem wheel_schedule_advance_fires (w : TimingWheel K) (k : K) (t tp : Nat)
    (hlen : w.slots.length = w.size) (hsz : 0 < w.size)
    (hinv : WheelIndexInv w)
    (hcur : w.cursor ≤ t / w.tickMs) (ht : t / w.tickMs < tp / w.tickMs) :
    k ∈ ((w.schedule k t).advanceTo tp).2 := by
  have hs : (w.slotFor t).2 < w.size := by
    have h1 : (t / w.tickMs) &&& (w.size - 1) ≤ w.size - 1 := Nat.and_le_right
    have : (w.slotFor t).2 ≤ w.size - 1 := h1
    omega
  unfold TimingWheel.advanceTo
  apply advanceLoop_fires k ((w.slotFor t).2)
  · refine ⟨t / w.tickMs - w.cursor, ?_, ?_⟩
    · rw [schedule_tickMs, schedule_cursor]
      omega
    · rw [schedule_cursor, schedule_size]
      rw [show w.cursor + (t / w.tickMs - w.cursor) = t / w.tickMs from by omega]
      rfl
  · exact schedule_mem_slot w k t hinv (by rw [hlen]; exact hs)
  · rw [schedule_slots_length, hlen]
    exact hs

/-- C3 witness: the amended theorem applied on a concrete wheel — 16 slots,
10 ms tick, start 0, `schedule(7, 12)` then `advance_to(25)`. -/
theorem wheel_schedule_advance_fires_witness :
    7 ∈ (((TimingWheel.new (K := Nat) 16 10 0).schedule 7 12).advanceTo 25).2 :=
  wheel_schedule_advance_fires (TimingWheel.new 16 10 0) 7 12 25 (by decide) (by decide)
    (fun q i h => by simp [TimingWheel.new, alookup] at h) (by decide) (by decide)

/-! ## C1 — TTL expiration on `get`, inclusive comparison, TTL 0 -/

theorem isBeforeOrEq_true_iff (a b : Nat) :
    AppTime.isBeforeOrEq a b = true ↔ a ≤ b := by
  simp [AppTime.isBeforeOrEq, Nat.le_iff_lt_or_eq]

theorem put_map_lookup_self (c : Cache K V) (now : Nat) (key : K) (value : V)
    (ttl : Option Nat) :
    ∃ ver, alookup (c.put now key value ttl).map key
      = some ⟨value, ver, ttl.map (fun ttlMs => now + ttlMs)⟩ := by
  unfold Cache.put
  cases halook : alookup c.map key with
  | none =>
    refine ⟨1, ?_⟩
    dsimp only
    split
    · next evictKey heq =>
      split
      · next hne =>
        rw [alookup_aerase_ne _ _ _ hne]
        exact alookup_ainsert_self _ _ _
      · exact alookup_ainsert_self _ _ _
    · exact alookup_ainsert_self _ _ _
  | some occ =>
    refine ⟨occ.version + 1, ?_⟩
    dsimp only
    split
    · next evictKey heq =>
      split
      · next hne =>
        rw [alookup_aerase_ne _ _ _ hne]
        exact alookup_ainsert_self _ _ _
      · exact alookup_ainsert_self _ _ _
    · exact alookup_ainsert_self _ _ _

theorem get_expired_none (c : Cache K V) (now : Nat) (key : K) (entry : CacheEntry V)
    (hlook : alookup c.map key = some entry) (e : Nat)
    (he : entry.expiresAt = some e) (hle : e ≤ now) :
    (c.get now key).1 = none ∧ alookup ((c.get now key).2).map key = none := by
  unfold Cache.get
  split
  · next heq =>
    rw [hlook] at heq
    exact absurd heq (by simp)
  · next entry2 heq =>
    rw [hlook] at heq
    injection heq with heq2
    subst heq2
    rw [he]
    rw [if_pos (by simpa [Option.elim] using (isBeforeOrEq_true_iff e now).mpr hle)]
    exact ⟨rfl, alookup_aerase_self _ _⟩

theorem get_live_value (c : Cache K V) (now : Nat) (key : K) (entry : CacheEntry V)
    (hlook : alookup c.map key = some entry)
    (hlive : ∀ e, entry.expiresAt = some e → now < e) :
    (c.get now key).1 = some entry.value := by
  unfold Cache.get
  have hcond : entry.expiresAt.elim false (fun exp => AppTime.isBeforeOrEq exp now) = false := by
    cases hexp : entry.expiresAt with
    | none => rfl
    | some e =>
      have := hlive e hexp
      simp [Option.elim, AppTime.isBeforeOrEq]
      omega
  split
  · next heq =>
    rw [hlook] at heq
    exact absurd heq (by simp)
  · next entry2 heq =>
    rw [hlook] at heq
    injection heq with heq2
    subst heq2
    rw [if_neg (by simp [hcond])]
    dsimp only
    split
    · next evictKey heq2 =>
      split <;> rfl
    · rfl

/-- C1: for a key stored with an expiration, `get` at a time `now` with
`expires_at ≤ now` (the comparison is inclusive) invalidates the entry and
returns `None`; if `expires_at > now` or absent, `get` returns the stored
value; and a `put` with TTL 0 is born expired: any later `get` returns
`None`. -/
theorem cache_get_expiration (c : Cache K V) (key : K) (now : Nat) :
    (∀ entry e, alookup c.map key = some entry → entry.expiresAt = some e →
        e ≤ now →
        (c.get now key).1 = none ∧ alookup ((c.get now key).2).map key = none) ∧
    (∀ entry, alookup c.map key = some entry →
        (∀ e, entry.expiresAt = some e → now < e) →
        (c.get now key).1 = some entry.value) ∧
    (∀ (value : V) (nowp : Nat), now ≤ nowp →
        ((c.put now key value (some 0)).get nowp key).1 = none) := by
  refine ⟨fun entry e hlook he hle => get_expired_none c now key entry hlook e he hle,
    fun entry hlook hlive => get_live_value c now key entry hlook hlive, ?_⟩
  intro value nowp hnow
  obtain ⟨ver, hlook⟩ := put_map_lookup_self c now key value (some 0)
  exact (get_expired_none _ nowp key _ hlook now (by simp) (by omega)).1

/-- C1 witness: on a concrete cache holding key 1 with value 7 expiring at
95 ms, `get` at 100 ms returns `None` and removes the entry, `get` at 94 ms
returns the value, and a TTL-0 `put` is gone on the next `get`. -/
theorem cache_get_expiration_witness :
    (((Cache.newWithCapacity 4 16 10 0 : Cache Nat Nat).put 90 1 7 (some 5)).get 100 1).1
        = none ∧
    (((Cache.newWithCapacity 4 16 10 0 : Cache Nat Nat).put 90 1 7 (some 5)).get 94 1).1
        = some 7 ∧
    (((Cache.newWithCapacity 4 16 10 0 : Cache Nat Nat).put 100 2 9 (some 0)).get 100 2).1
        = none := by
  refine ⟨?_, ?_, ?_⟩
  · exact ((cache_get_expiration _ 1 100).1 ⟨7, 1, some 95⟩ 95 (by decide) (by decide)
      (by decide)).1
  · exact (cache_get_expiration _ 1 94).2.1 ⟨7, 1, some 95⟩ (by decide)
      (fun e he => by simp at he; omega)
  · exact (cache_get_expiration (Cache.newWithCapacity 4 16 10 0) 2 100).2.2 9 100
      (by decide)

/-! ## Lemmas about the linked-list abstraction -/

theorem alookup_eq_none_iff (m : List (K × A)) (q : K) :
    alookup m q = none ↔ q ∉ akeys m := by
  rw [← alookup_isSome_iff_mem]
  cases alookup m q <;> simp

theorem aerase_not_mem (m : List (K × A)) (k : K) (h : k ∉ akeys m) :
    aerase m k = m := by
  induction m with
  | nil => rfl
  | cons p t ih =>
    obtain ⟨a, b⟩ := p
    have ha : a ≠ k := fun hh => h (hh ▸ List.mem_cons_self _ _)
    have ht : k ∉ akeys t := fun hh => h (List.mem_cons_of_mem _ hh)
    unfold aerase at ih ⊢
    rw [List.filter_cons, if_pos (by simp [ha])]
    rw [ih ht]

theorem akeys_aerase (m : List (K × A)) (k : K) :
    akeys (aerase m k) = (akeys m).filter (fun a => a ≠ k) := by
  induction m with
  | nil => rfl
  | cons p t ih =>
    obtain ⟨a, b⟩ := p
    by_cases ha : a = k
    · subst ha
      rw [show aerase ((a, b) :: t) a = aerase t a from by simp [aerase, List.filter_cons]]
      rw [show akeys ((a, b) :: t) = a :: akeys t from rfl]
      rw [List.filter_cons, if_neg (by simp)]
      exact ih
    · rw [show aerase ((a, b) :: t) k = (a, b) :: aerase t k from by
        simp [aerase, List.filter_cons, ha]]
      rw [show akeys ((a, b) :: aerase t k) = a :: akeys (aerase t k) from rfl]
      rw [show akeys ((a, b) :: t) = a :: akeys t from rfl]
      rw [List.filter_cons, if_pos (by simp [ha])]
      rw [ih]

theorem aerase_length_of_mem (m : List (K × A)) (k : K)
    (hnd : (akeys m).Nodup) (hm : k ∈ akeys m) :
    (aerase m k).length = m.length - 1 := by
  induction m with
  | nil => simp [akeys] at hm
  | cons p t ih =>
    obtain ⟨a, b⟩ := p
    have hnd2 : (akeys t).Nodup := (List.nodup_cons.mp hnd).2
    have hna : a ∉ akeys t := (List.nodup_cons.mp hnd).1
    by_cases ha : a = k
    · subst ha
      rw [show aerase ((a, b) :: t) a = aerase t a from by simp [aerase, List.filter_cons]]
      rw [aerase_not_mem t a hna]
      simp
    · have hmt : k ∈ akeys t := by
        rcases List.mem_cons.mp hm with h | h
        · exact absurd h.symm ha
        · exact h
      have hlen : 1 ≤ t.length := by
        have : akeys t ≠ [] := fun hh => by simp [hh] at hmt
        have : t ≠ [] := fun hh => this (by simp [hh, akeys])
        cases t with
        | nil => exact absurd rfl this
        | cons _ _ => simp
      rw [show aerase ((a, b) :: t) k = (a, b) :: aerase t k from by
        simp [aerase, List.filter_cons, ha]]
      simp only [List.length_cons, ih hnd2 hmt]
      omega

theorem ainsert_length_of_mem (m : List (K × A)) (k : K) (v : A)
    (h : (alookup m k).isSome) :
    (ainsert m k v).length = m.length := by
  unfold ainsert
  rw [if_pos h]
  simp

theorem ainsert_length_of_not_mem (m : List (K × A)) (k : K) (v : A)
    (h : alookup m k = none) :
    (ainsert m k v).length = m.length + 1 := by
  unfold ainsert
  rw [if_neg (by simp [h])]
  simp

theorem akeys_ainsert_of_mem (m : List (K × A)) (k : K) (v : A)
    (h : (alookup m k).isSome) :
    akeys (ainsert m k v) = akeys m := by
  unfold ainsert
  rw [if_pos h]
  exact akeys_map_replace m k v

theorem akeys_ainsert_of_not_mem (m : List (K × A)) (k : K) (v : A)
    (h : alookup m k = none) :
    akeys (ainsert m k v) = k :: akeys m := by
  unfold ainsert
  rw [if_neg (by simp [h])]
  rfl

theorem akeys_updLink (m : List (K × A)) (key : K) (f : A → A) :
    akeys (updLink m key f) = akeys m := by
  induction m with
  | nil => rfl
  | cons p t ih =>
    obtain ⟨a, b⟩ := p
    by_cases ha : a = key <;> simp [updLink, akeys, ha] at ih ⊢ <;> exact ih

theorem lastO_none (xs : List K) : lastO xs none = xs.getLast? := by
  unfold lastO
  cases hx : xs.getLast? <;> rfl

theorem lastO_ne_nil (xs : List K) (pr : Option K) (h : xs ≠ []) :
    lastO xs pr = xs.getLast? := by
  unfold lastO
  cases hx : xs.getLast? with
  | none => exact absurd (List.getLast?_eq_none_iff.mp hx) h
  | some x => rfl

theorem lastO_cons (a : K) (xs : List K) (pr : Option K) :
    lastO (a :: xs) pr = lastO xs (some a) := by
  cases xs with
  | nil => rfl
  | cons b xs2 =>
    rw [lastO_ne_nil _ _ (by simp), lastO_ne_nil _ _ (by simp), List.getLast?_cons_cons]

theorem akeys_seg (pr : Option K) (l : List K) : akeys (seg pr l) = l := by
  induction l generalizing pr with
  | nil => rfl
  | cons x rest ih => simp [seg, akeys] at ih ⊢; exact ih (some x)

theorem alookup_seg_not_mem (pr : Option K) (l : List K) (q : K) (h : q ∉ l) :
    alookup (seg pr l) q = none := by
  induction l generalizing pr with
  | nil => rfl
  | cons x rest ih =>
    have hq : ¬ x = q := fun hh => h (hh ▸ List.mem_cons_self x rest)
    simp only [seg, alookup, if_neg hq]
    exact ih (some x) fun hm => h (List.mem_cons_of_mem x hm)

theorem alookup_seg_middle (pr : Option K) (xs ys : List K) (q : K) (hq : q ∉ xs) :
    alookup (seg pr (xs ++ q :: ys)) q = some (lastO xs pr, ys.head?) := by
  induction xs generalizing pr with
  | nil => simp [seg, alookup, lastO]
  | cons a xs ih =>
    have ha : ¬ a = q := fun hh => hq (hh ▸ List.mem_cons_self a xs)
    rw [show ((a :: xs) ++ q :: ys) = a :: (xs ++ q :: ys) from rfl]
    simp only [seg, alookup, if_neg ha]
    rw [ih (some a) fun hm => hq (List.mem_cons_of_mem a hm)]
    rw [lastO_cons]

theorem alookup_seg_cons (pr : Option K) (a : K) (l : List K) (q : K) (hq : ¬ a = q) :
    alookup (seg pr (a :: l)) q = alookup (seg (some a) l) q := by
  simp [seg, alookup, hq]

theorem alookup_seg_pr_irrel (pr pr2 : Option K) (l : List K) (q : K)
    (hq : l.head? ≠ some q) :
    alookup (seg pr l) q = alookup (seg pr2 l) q := by
  cases l with
  | nil => rfl
  | cons x rest =>
    have hx : ¬ x = q := fun hh => hq (by simp [hh])
    rw [alookup_seg_cons pr x rest q hx, alookup_seg_cons pr2 x rest q hx]

theorem head?_append_cons (B : List K) (c : K) (X Y : List K) :
    (B ++ c :: X).head? = (B ++ c :: Y).head? := by
  cases B <;> simp

theorem lastO_append (a b : List K) (pr : Option K) :
    lastO (a ++ b) pr = lastO b (lastO a pr) := by
  by_cases hb : b = []
  · subst hb
    simp [lastO]
  · rw [lastO_ne_nil b _ hb, lastO_ne_nil (a ++ b) _ (by simp [hb]),
      List.getLast?_append_of_ne_nil a hb]

theorem lastO_append_cons (A : List K) (c : K) (Z : List K) (pr : Option K) :
    lastO (A ++ c :: Z) pr = lastO Z (some c) := by
  rw [lastO_append, lastO_cons]

theorem mem_split_nodup (l : List K) (q : K) (hq : q ∈ l) (hn : l.Nodup) :
    ∃ xs ys, l = xs ++ q :: ys ∧ q ∉ xs ∧ q ∉ ys ∧ (xs ++ ys).Nodup := by
  rcases List.append_of_mem hq with ⟨xs, ys, rfl⟩
  rw [List.nodup_middle] at hn
  obtain ⟨hnotin, hnd⟩ := List.nodup_cons.mp hn
  exact ⟨xs, ys, rfl, fun h => hnotin (List.mem_append_left _ h),
    fun h => hnotin (List.mem_append_right _ h), hnd⟩

theorem alookup_seg_isSome_iff (l : List K) (q : K) (hn : l.Nodup) :
    (alookup (seg none l) q).isSome ↔ q ∈ l := by
  constructor
  · intro h
    by_contra hq
    rw [alookup_seg_not_mem _ _ _ hq] at h
    simp at h
  · intro hq
    obtain ⟨xs, ys, rfl, hqs, _, _⟩ := mem_split_nodup l q hq hn
    rw [alookup_seg_middle _ _ _ _ hqs]
    simp

/-! ## LRU operations against the list abstraction -/

theorem updLink_length (m : List (K × A)) (key : K) (f : A → A) :
    (updLink m key f).length = m.length := by
  simp [updLink]

theorem head?_append_ne_nil (a b : List K) (h : a ≠ []) :
    (a ++ b).head? = a.head? := by
  cases a with
  | nil => exact absurd rfl h
  | cons x t => simp

theorem detach_spec (s : LruState K) (k : K) (xs ys : List K)
    (hrepr : ReprLru s (xs ++ k :: ys)) (hxs : k ∉ xs) (hys : k ∉ ys) :
    (s.detach k).capacity = s.capacity ∧
    (s.detach k).head = (xs ++ ys).head? ∧
    (s.detach k).tail = (xs ++ ys).getLast? ∧
    akeys (s.detach k).links = akeys s.links ∧
    (s.detach k).links.length = s.links.length ∧
    alookup (s.detach k).links k = some (xs.getLast?, ys.head?) ∧
    (∀ q, q ≠ k → alookup (s.detach k).links q = alookup (seg none (xs ++ ys)) q) := by
  obtain ⟨hnd, hhead, htail, hknd, hlen, hluk⟩ := hrepr
  have hlook : alookup s.links k = some (xs.getLast?, ys.head?) := by
    rw [hluk k, alookup_seg_middle none xs ys k hxs, lastO_none]
  have hndxs : xs.Nodup := hnd.of_append_left
  have hndys : ys.Nodup := (List.nodup_cons.mp hnd.of_append_right).2
  have hdisj : ∀ a ∈ xs, a ∉ k :: ys := fun a ha hb =>
    (List.disjoint_of_nodup_append hnd) ha hb
  rcases List.eq_nil_or_concat xs with rfl | ⟨as, p, rfl⟩
  · -- xs = []
    cases ys with
    | nil =>
      have hd : s.detach k = { s with head := none, tail := none } := by
        unfold LruState.detach
        rw [hlook]
        rfl
      rw [hd]
      refine ⟨rfl, rfl, rfl, rfl, rfl, hlook, ?_⟩
      intro q hq
      rw [hluk q, alookup_seg_not_mem, alookup_seg_not_mem]
      · simp
      · simp [hq]
    | cons y ys2 =>
      have hky : ¬ k = y := fun hh => hys (hh ▸ List.mem_cons_self _ _)
      have hd : s.detach k
          = { s with head := some y, links := updLink s.links y (fun e => (none, e.2)) } := by
        unfold LruState.detach
        rw [hlook]
        rfl
      rw [hd]
      have hyk : ¬ y = k := fun hh => hky hh.symm
      refine ⟨rfl, by simp, ?_, ?ak1, ?ul1, ?_, ?_⟩
      case ak1 =>
        show akeys (updLink s.links y (fun e => (none, e.2))) = akeys s.links
        exact akeys_updLink _ _ _
      case ul1 =>
        show (updLink s.links y (fun e => (none, e.2))).length = s.links.length
        exact updLink_length _ _ _
      · -- tail
        rw [htail]
        simp [List.getLast?_cons_cons]
      · -- lookup k
        show alookup (updLink s.links y (fun e => (none, e.2))) k = _
        rw [alookup_updLink, if_neg hyk, hlook]
      · intro q hq
        show alookup (updLink s.links y (fun e => (none, e.2))) q = _
        rw [alookup_updLink]
        by_cases hqy : y = q
        · subst hqy
          rw [if_pos rfl, hluk y]
          rw [show (([] : List K) ++ k :: y :: ys2) = [k] ++ y :: ys2 from by simp]
          rw [alookup_seg_middle none [k] ys2 y (by simpa using hyk)]
          rw [show (([] : List K) ++ y :: ys2) = [] ++ y :: ys2 from rfl]
          rw [alookup_seg_middle none [] ys2 y (by simp)]
          simp [lastO]
        · rw [if_neg hqy, hluk q]
          rw [show (([] : List K) ++ k :: y :: ys2) = k :: y :: ys2 from by simp]
          rw [alookup_seg_cons none k _ q (show ¬ k = q from fun hh => hq hh.symm)]
          rw [show (([] : List K) ++ y :: ys2) = y :: ys2 from by simp]
          exact alookup_seg_pr_irrel _ _ _ _ (by simpa using hqy)
  · -- xs = as ++ [p]
    simp only [List.concat_eq_append] at *
    have hgl : (as ++ [p]).getLast? = some p := List.getLast?_concat _
    have hpk : ¬ p = k := fun hh =>
      hdisj p (List.mem_append_right _ (List.mem_cons_self _ _)) (hh ▸ List.mem_cons_self _ _)
    have hpas : p ∉ as := by
      have := hndxs
      rw [show as ++ [p] = as ++ p :: [] from rfl, List.nodup_middle] at this
      exact fun hh => (List.nodup_cons.mp this).1 (by simpa using hh)
    rw [hgl] at hlook
    cases ys with
    | nil =>
      have hd : s.detach k
          = { s with links := updLink s.links p (fun e => (e.1, none)), tail := some p } := by
        unfold LruState.detach
        rw [hlook]
        rfl
      rw [hd]
      refine ⟨rfl, ?_, ?_, ?ak2, ?ul2, ?_, ?_⟩
      case ak2 =>
        show akeys (updLink s.links p (fun e => (e.1, none))) = akeys s.links
        exact akeys_updLink _ _ _
      case ul2 =>
        show (updLink s.links p (fun e => (e.1, none))).length = s.links.length
        exact updLink_length _ _ _
      · show s.head = ((as ++ [p]) ++ ([] : List K)).head?
        rw [hhead]
        rw [head?_append_ne_nil (as ++ [p]) [k] (by simp),
          head?_append_ne_nil (as ++ [p]) [] (by simp)]
      · show some p = ((as ++ [p]) ++ ([] : List K)).getLast?
        simp [hgl]
      · show alookup (updLink s.links p (fun e => (e.1, none))) k = _
        rw [alookup_updLink, if_neg hpk, hlook, hgl]
      · intro q hq
        show alookup (updLink s.links p (fun e => (e.1, none))) q = _
        rw [alookup_updLink]
        by_cases hqp : p = q
        · subst hqp
          rw [if_pos rfl, hluk p]
          rw [show ((as ++ [p]) ++ k :: []) = as ++ p :: [k] from by simp]
          rw [alookup_seg_middle none as [k] p hpas]
          rw [show ((as ++ [p]) ++ ([] : List K)) = as ++ p :: [] from by simp]
          rw [alookup_seg_middle none as [] p hpas]
          simp
        · rw [if_neg hqp, hluk q]
          by_cases hqas : q ∈ as
          · obtain ⟨A, B, rfl, hqA, hqB, hndAB⟩ := mem_split_nodup as q hqas hndxs.of_append_left
            rw [show (((A ++ q :: B) ++ [p]) ++ k :: []) = A ++ q :: (B ++ p :: [k]) from by simp]
            rw [alookup_seg_middle none A _ q hqA]
            rw [show (((A ++ q :: B) ++ [p]) ++ ([] : List K)) = A ++ q :: (B ++ p :: []) from by simp]
            rw [alookup_seg_middle none A _ q hqA]
            rw [head?_append_cons B p [k] []]
          · have hq1 : q ∉ (as ++ [p]) ++ k :: [] := by
              intro hh
              rcases List.mem_append.mp hh with hh | hh
              · rcases List.mem_append.mp hh with hh | hh
                · exact hqas hh
                · simp at hh
                  exact hqp hh.symm
              · simp at hh
                exact hq hh
            have hq2 : q ∉ (as ++ [p]) ++ ([] : List K) := by
              intro hh
              rcases List.mem_append.mp hh with hh | hh
              · rcases List.mem_append.mp hh with hh | hh
                · exact hqas hh
                · simp at hh
                  exact hqp hh.symm
              · simp at hh
            rw [alookup_seg_not_mem _ _ _ hq1, alookup_seg_not_mem _ _ _ hq2]
    | cons y ys2 =>
      have hky : ¬ k = y := fun hh => hys (hh ▸ List.mem_cons_self _ _)
      have hpy : ¬ p = y := fun hh =>
        hdisj p (List.mem_append_right _ (List.mem_cons_self _ _))
          (by rw [hh]; exact List.mem_cons_of_mem _ (List.mem_cons_self _ _))
      have hd : s.detach k
          = { s with links := (updLink (updLink s.links p (fun e => (e.1, some y))) y
              (fun e => (some p, e.2))) } := by
        unfold LruState.detach
        rw [hlook]
        rfl
      have hyk : ¬ y = k := fun hh => hky hh.symm
      rw [hd]
      refine ⟨rfl, ?_, ?_, ?_, ?_, ?_, ?_⟩
      · show s.head = ((as ++ [p]) ++ y :: ys2).head?
        rw [hhead]
        rw [head?_append_ne_nil (as ++ [p]) (k :: y :: ys2) (by simp),
          head?_append_ne_nil (as ++ [p]) (y :: ys2) (by simp)]
      · show s.tail = ((as ++ [p]) ++ y :: ys2).getLast?
        rw [htail]
        rw [List.getLast?_append_of_ne_nil (as ++ [p]) (show k :: y :: ys2 ≠ [] from by simp),
          List.getLast?_append_of_ne_nil (as ++ [p]) (show y :: ys2 ≠ [] from by simp),
          List.getLast?_cons_cons]
      · show akeys (updLink (updLink s.links p (fun e => (e.1, some y))) y
            (fun e => (some p, e.2))) = akeys s.links
        rw [akeys_updLink, akeys_updLink]
      · show (updLink (updLink s.links p (fun e => (e.1, some y))) y
            (fun e => (some p, e.2))).length = s.links.length
        rw [updLink_length, updLink_length]
      · show alookup (updLink (updLink s.links p (fun e => (e.1, some y))) y
            (fun e => (some p, e.2))) k = _
        rw [alookup_updLink, if_neg hyk, alookup_updLink, if_neg hpk, hlook, hgl]
      · intro q hq
        show alookup (updLink (updLink s.links p (fun e => (e.1, some y))) y
            (fun e => (some p, e.2))) q = _
        rw [alookup_updLink, alookup_updLink]
        by_cases hqy : y = q
        · subst hqy
          rw [if_pos rfl, if_neg hpy, hluk y]
          rw [show ((as ++ [p]) ++ k :: y :: ys2) = ((as ++ [p]) ++ [k]) ++ y :: ys2 from by simp]
          have hynot : y ∉ (as ++ [p]) ++ [k] := by
            intro hh
            rcases List.mem_append.mp hh with hh | hh
            · exact hdisj y hh (List.mem_cons_of_mem _ (List.mem_cons_self _ _))
            · simp at hh
              exact hky hh.symm
          rw [alookup_seg_middle none _ ys2 y hynot]
          rw [show ((as ++ [p]) ++ y :: ys2) = (as ++ [p]) ++ y :: ys2 from rfl]
          rw [alookup_seg_middle none _ ys2 y (fun hh => hynot (List.mem_append_left _ hh))]
          rw [lastO_none, lastO_none, hgl]
          simp [List.getLast?_concat]
        · rw [if_neg hqy]
          by_cases hqp : p = q
          · subst hqp
            rw [if_pos rfl, hluk p]
            rw [show ((as ++ [p]) ++ k :: y :: ys2) = as ++ p :: (k :: y :: ys2) from by simp]
            rw [alookup_seg_middle none as _ p hpas]
            rw [show ((as ++ [p]) ++ y :: ys2) = as ++ p :: (y :: ys2) from by simp]
            rw [alookup_seg_middle none as _ p hpas]
            simp
          · rw [if_neg hqp, hluk q]
            by_cases hqas : q ∈ as
            · obtain ⟨A, B, rfl, hqA, hqB, hndAB⟩ := mem_split_nodup as q hqas hndxs.of_append_left
              rw [show (((A ++ q :: B) ++ [p]) ++ k :: y :: ys2)
                  = A ++ q :: (B ++ p :: (k :: y :: ys2)) from by simp]
              rw [alookup_seg_middle none A _ q hqA]
              rw [show (((A ++ q :: B) ++ [p]) ++ y :: ys2)
                  = A ++ q :: (B ++ p :: (y :: ys2)) from by simp]
              rw [alookup_seg_middle none A _ q hqA]
              rw [head?_append_cons B p (k :: y :: ys2) (y :: ys2)]
            · by_cases hqys2 : q ∈ ys2
              · obtain ⟨A2, B2, rfl, hqA2, hqB2, hndAB2⟩ := mem_split_nodup ys2 q hqys2 hndys.of_cons
                have hmemq1 : q ∉ as ++ p :: (k :: y :: A2) := by
                  intro hh
                  rcases List.mem_append.mp hh with hh | hh
                  · exact hqas hh
                  · rcases List.mem_cons.mp hh with hh | hh
                    · exact hqp hh.symm
                    · rcases List.mem_cons.mp hh with hh | hh
                      · exact hq hh
                      · rcases List.mem_cons.mp hh with hh | hh
                        · exact hqy hh.symm
                        · exact hqA2 hh
                have hmemq2 : q ∉ as ++ p :: (y :: A2) := by
                  intro hh
                  rcases List.mem_append.mp hh with hh | hh
                  · exact hqas hh
                  · rcases List.mem_cons.mp hh with hh | hh
                    · exact hqp hh.symm
                    · rcases List.mem_cons.mp hh with hh | hh
                      · exact hqy hh.symm
                      · exact hqA2 hh
                rw [show ((as ++ [p]) ++ k :: y :: (A2 ++ q :: B2))
                    = (as ++ p :: (k :: y :: A2)) ++ q :: B2 from by simp]
                rw [alookup_seg_middle none _ B2 q hmemq1]
                rw [show ((as ++ [p]) ++ y :: (A2 ++ q :: B2))
                    = (as ++ p :: (y :: A2)) ++ q :: B2 from by simp]
                rw [alookup_seg_middle none _ B2 q hmemq2]
                rw [show (as ++ p :: (k :: y :: A2)) = (as ++ p :: [k]) ++ (y :: A2) from by simp]
                rw [lastO_append, lastO_cons]
                rw [show (as ++ p :: (y :: A2)) = (as ++ [p]) ++ (y :: A2) from by simp]
                rw [lastO_append, lastO_cons]
              · have hq1 : q ∉ (as ++ [p]) ++ k :: y :: ys2 := by
                  intro hh
                  rcases List.mem_append.mp hh with hh | hh
                  · rcases List.mem_append.mp hh with hh | hh
                    · exact hqas hh
                    · simp at hh
                      exact hqp hh.symm
                  · rcases List.mem_cons.mp hh with hh | hh
                    · exact hq hh
                    · rcases List.mem_cons.mp hh with hh | hh
                      · exact hqy hh.symm
                      · exact hqys2 hh
                have hq2 : q ∉ (as ++ [p]) ++ y :: ys2 := by
                  intro hh
                  rcases List.mem_append.mp hh with hh | hh
                  · rcases List.mem_append.mp hh with hh | hh
                    · exact hqas hh
                    · simp at hh
                      exact hqp hh.symm
                  · rcases List.mem_cons.mp hh with hh | hh
                    · exact hqy hh.symm
                    · exact hqys2 hh
                rw [alookup_seg_not_mem _ _ _ hq1, alookup_seg_not_mem _ _ _ hq2]


end JChallenge

namespace JChallenge

variable {K : Type} [DecidableEq K] {A : Type}

theorem pushFront_repr (s : LruState K) (l : List K) (k : K) (h : ReprLru s l) :
    ReprLru (s.pushFront k) (k :: l.erase k) ∧ (s.pushFront k).capacity = s.capacity := by
  obtain ⟨hnd, hhead, htail, hknd, hlen, hluk⟩ := h
  by_cases hmem : k ∈ l
  · -- k is somewhere in l: detach it first, then reinsert at the head
    obtain ⟨xs, ys, rfl, hxs, hys, hndxy⟩ := mem_split_nodup l k hmem hnd
    obtain ⟨Dcap, Dhead, Dtail, Dkeys, Dlen, Dlookk, Dluk⟩ :=
      detach_spec s k xs ys ⟨hnd, hhead, htail, hknd, hlen, hluk⟩ hxs hys
    have hsome : (alookup s.links k).isSome = true := by
      rw [hluk k, alookup_seg_middle none xs ys k hxs]
      rfl
    have herase : (xs ++ k :: ys).erase k = xs ++ ys := by
      rw [List.erase_append_right _ hxs, List.erase_cons_head]
    rw [herase]
    cases hxy : xs ++ ys with
    | nil =>
      have hxsnil : xs = [] := by
        cases xs with
        | nil => rfl
        | cons a t => simp at hxy
      have hysnil : ys = [] := by
        cases xs with
        | nil => simpa using hxy
        | cons a t => simp at hxy
      subst hxsnil
      subst hysnil
      have hpf : s.pushFront k
          = { capacity := (s.detach k).capacity, head := some k, tail := some k,
              links := ainsert (s.detach k).links k (none, none) } := by
        unfold LruState.pushFront
        rw [hsome, if_pos rfl]
        dsimp only
        rw [show (s.detach k).head = none from by rw [Dhead]; rfl]
        dsimp only
        rw [show (s.detach k).tail = none from by rw [Dtail]; rfl]
        rfl
      rw [hpf]
      refine ⟨⟨by simp, rfl, rfl, ?_, ?_, ?_⟩, Dcap⟩
      · show (akeys (ainsert (s.detach k).links k (none, none))).Nodup
        rw [akeys_ainsert_of_mem _ _ _ (by rw [Dlookk]; rfl), Dkeys]
        exact hknd
      · show (ainsert (s.detach k).links k (none, none)).length = (k :: ([] ++ [])).length
        rw [ainsert_length_of_mem _ _ _ (by rw [Dlookk]; rfl), Dlen, hlen]
        rfl
      · intro q
        show alookup (ainsert (s.detach k).links k (none, none)) q
            = alookup (seg none (k :: ([] ++ []))) q
        by_cases hq : q = k
        · subst hq
          rw [alookup_ainsert_self]
          rw [show (q :: (([] : List K) ++ [])) = [] ++ q :: ([] : List K) from rfl]
          rw [alookup_seg_middle none [] [] q (by simp)]
          rfl
        · rw [alookup_ainsert_ne _ _ _ _ (fun hh => hq hh.symm)]
          rw [Dluk q hq]
          rw [alookup_seg_not_mem _ _ _ (by simp : q ∉ ([] : List K) ++ [])]
          rw [alookup_seg_not_mem _ _ _ (by simp [hq] : q ∉ k :: (([] : List K) ++ []))]
    | cons m0 M2 =>
      have hm0k : m0 ∈ xs ++ ys := by rw [hxy]; exact List.mem_cons_self _ _
      have hm0ne : ¬ m0 = k := by
        intro hh
        subst hh
        rcases List.mem_append.mp hm0k with hh2 | hh2
        · exact hxs hh2
        · exact hys hh2
      have hpf : s.pushFront k
          = { capacity := (s.detach k).capacity, head := some k, tail := (s.detach k).tail,
              links := (updLink (ainsert (s.detach k).links k (none, some m0)) m0
                (fun e => (some k, e.2))) } := by
        unfold LruState.pushFront
        rw [hsome, if_pos rfl]
        dsimp only
        rw [show (s.detach k).head = some m0 from by rw [Dhead, hxy]; rfl]
        dsimp only
        rw [show ((s.detach k).tail).isNone = false from by
          rw [Dtail, hxy]
          cases hgl : (m0 :: M2).getLast? with
          | none =>
            exact absurd (List.getLast?_isSome.mpr (by simp) : ((m0 :: M2).getLast?).isSome)
              (by rw [hgl]; simp)
          | some t => rfl]
        rfl
      rw [hpf]
      rw [show (k :: m0 :: M2) = k :: (xs ++ ys) from by rw [hxy]]
      refine ⟨⟨?_, rfl, ?_, ?_, ?_, ?_⟩, Dcap⟩
      · -- Nodup (k :: xs ++ ys)
        rw [List.nodup_cons]
        refine ⟨fun hh => ?_, hndxy⟩
        rcases List.mem_append.mp hh with hh2 | hh2
        · exact hxs hh2
        · exact hys hh2
      · show (s.detach k).tail = (k :: (xs ++ ys)).getLast?
        rw [Dtail, hxy, List.getLast?_cons_cons]
      · show (akeys (updLink (ainsert (s.detach k).links k (none, some m0)) m0
            (fun e => (some k, e.2)))).Nodup
        rw [akeys_updLink, akeys_ainsert_of_mem _ _ _ (by rw [Dlookk]; rfl), Dkeys]
        exact hknd
      · show (updLink (ainsert (s.detach k).links k (none, some m0)) m0
            (fun e => (some k, e.2))).length = (k :: (xs ++ ys)).length
        rw [updLink_length, ainsert_length_of_mem _ _ _ (by rw [Dlookk]; rfl), Dlen, hlen]
        simp only [List.length_append, List.length_cons]
        omega
      · intro q
        show alookup (updLink (ainsert (s.detach k).links k (none, some m0)) m0
            (fun e => (some k, e.2))) q = alookup (seg none (k :: (xs ++ ys))) q
        rw [alookup_updLink]
        by_cases hq : q = k
        · subst hq
          rw [if_neg hm0ne, alookup_ainsert_self]
          rw [show (q :: (xs ++ ys)) = [] ++ q :: (xs ++ ys) from rfl]
          rw [alookup_seg_middle none [] (xs ++ ys) q (by simp)]
          rw [hxy]
          rfl
        · by_cases hqm : m0 = q
          · subst hqm
            rw [if_pos rfl]
            rw [alookup_ainsert_ne _ _ _ _ (fun hh => hq (by rw [hh]))]
            rw [Dluk m0 hq]
            rw [hxy]
            rw [show (k :: (m0 :: M2)) = [k] ++ m0 :: M2 from rfl]
            rw [alookup_seg_middle none [k] M2 m0 (by simpa using hm0ne)]
            rw [show (m0 :: M2) = [] ++ m0 :: M2 from rfl]
            rw [alookup_seg_middle none [] M2 m0 (by simp)]
            rfl
          · rw [if_neg hqm]
            rw [alookup_ainsert_ne _ _ _ _ (fun hh => hq hh.symm)]
            rw [Dluk q hq]
            rw [alookup_seg_cons none k _ q (show ¬ k = q from fun hh => hq hh.symm)]
            apply alookup_seg_pr_irrel
            rw [hxy]
            simpa using hqm
  · -- k is fresh
    have hlookN : alookup s.links k = none := by
      rw [hluk k]
      exact alookup_seg_not_mem _ _ _ hmem
    have hnotsome : (alookup s.links k).isSome = false := by rw [hlookN]; rfl
    have herase : l.erase k = l := List.erase_of_not_mem hmem
    rw [herase]
    cases hl : l with
    | nil =>
      subst hl
      have hlinks : s.links = [] := List.length_eq_zero.mp (by rw [hlen]; rfl)
      have hpf : s.pushFront k
          = { capacity := s.capacity, head := some k, tail := some k,
              links := ainsert s.links k (none, none) } := by
        unfold LruState.pushFront
        rw [hnotsome, if_neg (show ¬ false = true by simp)]
        dsimp only
        rw [show s.head = none from hhead]
        dsimp only
        rw [show s.tail = none from htail]
        rfl
      rw [hpf]
      refine ⟨⟨by simp, rfl, rfl, ?_, ?_, ?_⟩, rfl⟩
      · show (akeys (ainsert s.links k (none, none))).Nodup
        rw [akeys_ainsert_of_not_mem _ _ _ hlookN, hlinks]
        simp [akeys]
      · show (ainsert s.links k (none, none)).length = ([k] : List K).length
        rw [ainsert_length_of_not_mem _ _ _ hlookN, hlen]
        rfl
      · intro q
        show alookup (ainsert s.links k (none, none)) q = alookup (seg none [k]) q
        by_cases hq : q = k
        · subst hq
          rw [alookup_ainsert_self]
          rw [show ([q] : List K) = [] ++ q :: ([] : List K) from rfl]
          rw [alookup_seg_middle none [] [] q (by simp)]
          rfl
        · rw [alookup_ainsert_ne _ _ _ _ (fun hh => hq hh.symm), hlinks]
          rw [alookup_seg_not_mem _ _ _ (by simp [hq] : q ∉ ([k] : List K))]
          rfl
    | cons h0 l2 =>
      subst hl
      have hh0 : ¬ h0 = k := fun hh => hmem (hh ▸ List.mem_cons_self _ _)
      have hpf : s.pushFront k
          = { capacity := s.capacity, head := some k, tail := s.tail,
              links := (updLink (ainsert s.links k (none, some h0)) h0
                (fun e => (some k, e.2))) } := by
        unfold LruState.pushFront
        rw [hnotsome, if_neg (show ¬ false = true by simp)]
        dsimp only
        rw [show s.head = some h0 from hhead]
        dsimp only
        rw [show (s.tail).isNone = false from by
          rw [htail]
          cases hgl : (h0 :: l2).getLast? with
          | none =>
            exact absurd (List.getLast?_isSome.mpr (by simp) : ((h0 :: l2).getLast?).isSome)
              (by rw [hgl]; simp)
          | some t => rfl]
        rfl
      rw [hpf]
      refine ⟨⟨?_, rfl, ?_, ?_, ?_, ?_⟩, rfl⟩
      · exact List.nodup_cons.mpr ⟨hmem, hnd⟩
      · show s.tail = (k :: h0 :: l2).getLast?
        rw [htail, List.getLast?_cons_cons]
      · show (akeys (updLink (ainsert s.links k (none, some h0)) h0
            (fun e => (some k, e.2)))).Nodup
        rw [akeys_updLink, akeys_ainsert_of_not_mem _ _ _ hlookN]
        rw [List.nodup_cons]
        refine ⟨fun hh => ?_, hknd⟩
        rw [← alookup_isSome_iff_mem, hlookN] at hh
        exact absurd hh (by simp)
      · show (updLink (ainsert s.links k (none, some h0)) h0
            (fun e => (some k, e.2))).length = (k :: h0 :: l2).length
        rw [updLink_length, ainsert_length_of_not_mem _ _ _ hlookN, hlen]
        rfl
      · intro q
        show alookup (updLink (ainsert s.links k (none, some h0)) h0
            (fun e => (some k, e.2))) q = alookup (seg none (k :: h0 :: l2)) q
        rw [alookup_updLink]
        by_cases hq : q = k
        · subst hq
          rw [if_neg hh0, alookup_ainsert_self]
          rw [show (q :: h0 :: l2) = [] ++ q :: (h0 :: l2) from rfl]
          rw [alookup_seg_middle none [] (h0 :: l2) q (by simp)]
          rfl
        · by_cases hqh : h0 = q
          · subst hqh
            rw [if_pos rfl]
            rw [alookup_ainsert_ne _ _ _ _ (fun hh => hq (by rw [hh]))]
            rw [hluk h0]
            rw [show (k :: h0 :: l2) = [k] ++ h0 :: l2 from rfl]
            rw [alookup_seg_middle none [k] l2 h0 (by simpa using hh0)]
            rw [show (h0 :: l2) = [] ++ h0 :: l2 from rfl]
            rw [alookup_seg_middle none [] l2 h0 (by simp)]
            rfl
          · rw [if_neg hqh]
            rw [alookup_ainsert_ne _ _ _ _ (fun hh => hq hh.symm)]
            rw [hluk q]
            rw [alookup_seg_cons none k _ q (show ¬ k = q from fun hh => hq hh.symm)]
            apply alookup_seg_pr_irrel
            simpa using hqh

end JChallenge

namespace JChallenge

variable {K : Type} [DecidableEq K] {A : Type}

theorem removeKey_repr (s : LruState K) (l : List K) (k : K) (h : ReprLru s l) :
    (s.removeKey k).1 = decide (k ∈ l) ∧ ReprLru (s.removeKey k).2 (l.erase k) ∧
      (s.removeKey k).2.capacity = s.capacity := by
  obtain ⟨hnd, hhead, htail, hknd, hlen, hluk⟩ := h
  by_cases hmem : k ∈ l
  · obtain ⟨xs, ys, rfl, hxs, hys, hndxy⟩ := mem_split_nodup l k hmem hnd
    obtain ⟨Dcap, Dhead, Dtail, Dkeys, Dlen, Dlookk, Dluk⟩ :=
      detach_spec s k xs ys ⟨hnd, hhead, htail, hknd, hlen, hluk⟩ hxs hys
    have hsome : (alookup s.links k).isSome = true := by
      rw [hluk k, alookup_seg_middle none xs ys k hxs]
      rfl
    have hknotin : k ∉ xs ++ ys := fun hh => (List.mem_append.mp hh).elim hxs hys
    have hkmem : k ∈ akeys (s.detach k).links := by
      rw [← alookup_isSome_iff_mem, Dlookk]
      simp
    have herase : (xs ++ k :: ys).erase k = xs ++ ys := by
      rw [List.erase_append_right _ hxs, List.erase_cons_head]
    have hrk : s.removeKey k
        = (true, { capacity := (s.detach k).capacity, head := (s.detach k).head,
                   tail := (s.detach k).tail, links := aerase (s.detach k).links k }) := by
      unfold LruState.removeKey
      rw [hsome, if_pos rfl]
    rw [hrk, herase]
    refine ⟨(by simpa using (decide_eq_true hmem).symm), ⟨hndxy, Dhead, Dtail, ?_, ?_, ?_⟩, Dcap⟩
    · show (akeys (aerase (s.detach k).links k)).Nodup
      rw [akeys_aerase, Dkeys]
      exact hknd.filter _
    · show (aerase (s.detach k).links k).length = (xs ++ ys).length
      rw [aerase_length_of_mem _ _ (by rw [Dkeys]; exact hknd) hkmem, Dlen, hlen]
      simp only [List.length_append, List.length_cons]
      omega
    · intro q
      show alookup (aerase (s.detach k).links k) q = alookup (seg none (xs ++ ys)) q
      by_cases hq : q = k
      · subst hq
        rw [alookup_aerase_self, alookup_seg_not_mem _ _ _ hknotin]
      · rw [alookup_aerase_ne _ _ _ (fun hh => hq hh.symm), Dluk q hq]
  · have hlookN : alookup s.links k = none := by
      rw [hluk k]
      exact alookup_seg_not_mem _ _ _ hmem
    have hnotsome : (alookup s.links k).isSome = false := by rw [hlookN]; rfl
    have hrk : s.removeKey k = (false, s) := by
      unfold LruState.removeKey
      rw [hnotsome, if_neg (show ¬ false = true by simp)]
    rw [hrk, List.erase_of_not_mem hmem]
    exact ⟨by simpa using (decide_eq_false hmem).symm,
      ⟨hnd, hhead, htail, hknd, hlen, hluk⟩, rfl⟩

theorem alookup_seg_concat (pr : Option K) (xs : List K) (t q : K) (hqt : ¬ q = t) :
    xs.getLast? ≠ some q →
    alookup (seg pr (xs ++ [t])) q = alookup (seg pr xs) q := by
  induction xs generalizing pr with
  | nil =>
    intro _
    show alookup (seg pr [t]) q = alookup (seg pr []) q
    rw [alookup_seg_cons pr t [] q (fun hh => hqt hh.symm)]
    rfl
  | cons a xs ih =>
    intro hqp
    by_cases ha : a = q
    · subst ha
      have hxs : xs ≠ [] := by
        intro hh
        subst hh
        exact hqp rfl
      rw [show ((a :: xs) ++ [t]) = [] ++ a :: (xs ++ [t]) from rfl]
      rw [alookup_seg_middle pr [] (xs ++ [t]) a (by simp)]
      rw [show (a :: xs) = [] ++ a :: xs from rfl]
      rw [alookup_seg_middle pr [] xs a (by simp)]
      rw [head?_append_ne_nil xs [t] hxs]
    · rw [show ((a :: xs) ++ [t]) = a :: (xs ++ [t]) from rfl]
      rw [alookup_seg_cons pr a (xs ++ [t]) q ha]
      rw [alookup_seg_cons pr a xs q ha]
      apply ih
      cases xs with
      | nil => simp
      | cons b bs =>
        rw [List.getLast?_cons_cons] at hqp
        exact hqp

theorem popBack_repr (s : LruState K) (l : List K) (h : ReprLru s l) (hne : l ≠ []) :
    (s.popBack).1 = l.getLast? ∧ ReprLru (s.popBack).2 l.dropLast ∧
      (s.popBack).2.capacity = s.capacity := by
  obtain ⟨hnd, hhead, htail, hknd, hlen, hluk⟩ := h
  obtain ⟨xs, t, rfl⟩ : ∃ xs tt, l = xs ++ [tt] := by
    rcases List.eq_nil_or_concat l with hl | ⟨xs, tt, hl⟩
    · exact absurd hl hne
    · exact ⟨xs, tt, by rw [hl, List.concat_eq_append]⟩
  have hglast : (xs ++ [t]).getLast? = some t := by
    rw [List.getLast?_concat]
  have htail' : s.tail = some t := by rw [htail, hglast]
  have hxs : t ∉ xs := by
    intro hh
    exact (List.nodup_append.mp hnd).2.2 hh (by simp)
  have hlt : alookup s.links t = some (lastO xs none, none) := by
    rw [hluk t, alookup_seg_middle none xs [] t hxs]
    rfl
  have htmem : t ∈ akeys s.links :=
    (alookup_isSome_iff_mem _ _).mp (by rw [hlt]; rfl)
  have hdrop : (xs ++ [t]).dropLast = xs := by
    rw [List.dropLast_concat]
  rw [hdrop]
  rcases List.eq_nil_or_concat xs with hxsnil | ⟨as, p, hxsc⟩
  · subst hxsnil
    have hpb : s.popBack = (some t, { capacity := s.capacity, head := none, tail := none,
                                      links := aerase s.links t }) := by
      unfold LruState.popBack
      rw [htail']
      dsimp only
      rw [show (alookup s.links t).bind (fun e => e.1) = none from by rw [hlt]; rfl]
    rw [hpb]
    refine ⟨hglast.symm, ⟨by simp, rfl, rfl, ?_, ?_, ?_⟩, rfl⟩
    · show (akeys (aerase s.links t)).Nodup
      rw [akeys_aerase]
      exact hknd.filter _
    · show (aerase s.links t).length = ([] : List K).length
      rw [aerase_length_of_mem _ _ hknd htmem, hlen]
      rfl
    · intro q
      show alookup (aerase s.links t) q = alookup (seg none ([] : List K)) q
      by_cases hq : q = t
      · subst hq
        rw [alookup_aerase_self]
        rfl
      · rw [alookup_aerase_ne _ _ _ (fun hh => hq hh.symm), hluk q]
        rw [alookup_seg_not_mem _ _ _ (by simp [hq] : q ∉ ([] : List K) ++ [t])]
        rfl
  · rw [List.concat_eq_append] at hxsc
    subst hxsc
    have hplast : (as ++ [p]).getLast? = some p := by
      rw [List.getLast?_concat]
    have hpas : p ∉ as :=
      fun hh => (List.nodup_append.mp (List.nodup_append.mp hnd).1).2.2 hh (by simp)
    have hpb : s.popBack = (some t, { capacity := s.capacity, head := s.head, tail := some p,
                                      links := aerase (updLink s.links p
                                        (fun e => (e.1, none))) t }) := by
      unfold LruState.popBack
      rw [htail']
      dsimp only
      rw [show (alookup s.links t).bind (fun e => e.1) = some p from by
        rw [hlt]
        show lastO (as ++ [p]) none = some p
        rw [lastO_ne_nil (as ++ [p]) none (by simp), hplast]]
    rw [hpb]
    refine ⟨hglast.symm, ⟨(List.nodup_append.mp hnd).1, ?_, hplast.symm, ?_, ?_, ?_⟩, rfl⟩
    · show s.head = (as ++ [p]).head?
      rw [hhead, head?_append_ne_nil (as ++ [p]) [t] (by simp)]
    · show (akeys (aerase (updLink s.links p (fun e => (e.1, none))) t)).Nodup
      rw [akeys_aerase, akeys_updLink]
      exact hknd.filter _
    · show (aerase (updLink s.links p (fun e => (e.1, none))) t).length
        = (as ++ [p]).length
      rw [aerase_length_of_mem _ _ (by rw [akeys_updLink]; exact hknd)
        (by rw [akeys_updLink]; exact htmem)]
      rw [updLink_length, hlen]
      simp only [List.length_append, List.length_cons, List.length_nil]
      omega
    · intro q
      show alookup (aerase (updLink s.links p (fun e => (e.1, none))) t) q
          = alookup (seg none (as ++ [p])) q
      by_cases hq : q = t
      · subst hq
        rw [alookup_aerase_self, alookup_seg_not_mem _ _ _ hxs]
      · rw [alookup_aerase_ne _ _ _ (fun hh => hq hh.symm), alookup_updLink]
        by_cases hqp : p = q
        · subst hqp
          rw [if_pos rfl, hluk p]
          rw [show ((as ++ [p]) ++ [t]) = as ++ p :: [t] from by simp]
          rw [alookup_seg_middle none as [t] p hpas]
          rw [alookup_seg_middle none as [] p hpas]
          rfl
        · rw [if_neg hqp, hluk q]
          exact alookup_seg_concat none (as ++ [p]) t q hq
            (by rw [hplast]; exact fun hh => hqp (Option.some_inj.mp hh))

end JChallenge

namespace JChallenge

variable {K : Type} [DecidableEq K] {A : Type} {V : Type}

theorem map_length_eq_of_iff (m : List (K × A)) (l : List K)
    (hm : (akeys m).Nodup) (hl : l.Nodup)
    (hiff : ∀ q, (alookup m q).isSome ↔ q ∈ l) : m.length = l.length := by
  have hperm : List.Perm (akeys m) l :=
    (List.perm_ext_iff_of_nodup hm hl).mpr
      (fun q => by rw [← alookup_isSome_iff_mem]; exact hiff q)
  have h1 : (akeys m).length = l.length := hperm.length_eq
  rw [← h1]
  simp [akeys]

theorem invalidate_inv (c : Cache K V) (key : K) (h : CacheInv c) :
    CacheInv ((c.invalidate key).2) ∧ ((c.invalidate key).2).lru.capacity = c.lru.capacity := by
  obtain ⟨hcap, l, hrepr, hmnd, hmlen, hmiff, hle⟩ := h
  obtain ⟨hlnd, hhd, htl, hknd2, hlen2, hluk2⟩ := hrepr
  have hRK := removeKey_repr c.lru l key ⟨hlnd, hhd, htl, hknd2, hlen2, hluk2⟩
  have hres : (c.invalidate key).2
      = ⟨aerase c.map key, (c.lru.removeKey key).2, c.wheel.deschedule key⟩ := rfl
  have hiff1 : ∀ q, (alookup (aerase c.map key) q).isSome ↔ q ∈ l.erase key := by
    intro q
    by_cases hq : q = key
    · subst hq
      rw [alookup_aerase_self]
      simp [List.Nodup.mem_erase_iff hlnd]
    · rw [alookup_aerase_ne _ _ _ (fun hh => hq hh.symm), hmiff q,
        List.Nodup.mem_erase_iff hlnd]
      simp [hq]
  have hnd1 : (akeys (aerase c.map key)).Nodup := by
    rw [akeys_aerase]
    exact hmnd.filter _
  rw [hres]
  refine ⟨⟨?_, l.erase key, hRK.2.1, hnd1, ?_, hiff1, ?_⟩, ?_⟩
  · show 0 < (c.lru.removeKey key).2.capacity
    rw [hRK.2.2]
    exact hcap
  · exact map_length_eq_of_iff _ _ hnd1 (hlnd.erase _) hiff1
  · show (aerase c.map key).length ≤ (c.lru.removeKey key).2.capacity
    rw [hRK.2.2]
    have h1 : (aerase c.map key).length = (l.erase key).length :=
      map_length_eq_of_iff _ _ hnd1 (hlnd.erase _) hiff1
    have h2 : (l.erase key).length ≤ l.length := (List.erase_sublist key l).length_le
    omega
  · exact hRK.2.2

theorem put_inv (c : Cache K V) (now : Nat) (key : K) (value : V) (ttl : Option Nat)
    (h : CacheInv c) :
    CacheInv (c.put now key value ttl) ∧
      (c.put now key value ttl).lru.capacity = c.lru.capacity := by
  obtain ⟨hcap, l, hrepr, hmnd, hmlen, hmiff, hle⟩ := h
  obtain ⟨hlnd, hhd, htl, hknd2, hlen2, hluk2⟩ := hrepr
  obtain ⟨hrepr1, hcap1⟩ :=
    pushFront_repr c.lru l key ⟨hlnd, hhd, htl, hknd2, hlen2, hluk2⟩
  have hlen1 : (c.lru.pushFront key).links.length = (key :: l.erase key).length := by
    obtain ⟨-, -, -, -, hx, -⟩ := hrepr1
    exact hx
  by_cases hkmem : key ∈ l
  · -- key already present: index entry is replaced, LRU length does not grow
    have hsomeM : (alookup c.map key).isSome := (hmiff key).mpr hkmem
    obtain ⟨occ, hml⟩ : ∃ occ, alookup c.map key = some occ := by
      cases hml : alookup c.map key with
      | none => rw [hml] at hsomeM; exact absurd hsomeM (by simp)
      | some occ => exact ⟨occ, rfl⟩
    have hlpos : 1 ≤ l.length := List.length_pos.mpr (List.ne_nil_of_mem hkmem)
    have hlen1' : (c.lru.pushFront key).links.length = l.length := by
      rw [hlen1, List.length_cons, List.length_erase_of_mem hkmem]
      omega
    have hover : (c.lru.pushFront key).overCapacity = false := by
      unfold LruState.overCapacity
      rw [hlen1', hcap1]
      exact decide_eq_false (by omega)
    have hmapE : (c.put now key value ttl).map
        = ainsert c.map key ⟨value, occ.version + 1, ttl.map (fun ttlMs => now + ttlMs)⟩ := by
      unfold Cache.put
      simp only [LruState.touch]
      rw [hml, hover]
      rfl
    have hlruE : (c.put now key value ttl).lru = c.lru.pushFront key := by
      unfold Cache.put
      simp only [LruState.touch]
      rw [hml, hover]
      rfl
    have hiff1 : ∀ q,
        (alookup (c.put now key value ttl).map q).isSome ↔ q ∈ key :: l.erase key := by
      intro q
      rw [hmapE]
      by_cases hq : q = key
      · subst hq
        rw [alookup_ainsert_self]
        simp
      · rw [alookup_ainsert_ne _ _ _ _ (fun hh => hq hh.symm), hmiff q]
        simp [List.mem_cons, List.Nodup.mem_erase_iff hlnd, hq]
    have hnd1 : (akeys (c.put now key value ttl).map).Nodup := by
      rw [hmapE, akeys_ainsert_of_mem _ _ _ hsomeM]
      exact hmnd
    have hlnd1 : (key :: l.erase key).Nodup := by
      obtain ⟨hx, -⟩ := hrepr1
      exact hx
    have hlenF : (c.put now key value ttl).map.length = (key :: l.erase key).length :=
      map_length_eq_of_iff _ _ hnd1 hlnd1 hiff1
    refine ⟨⟨?_, key :: l.erase key, ?_, hnd1, hlenF, hiff1, ?_⟩, ?_⟩
    · rw [hlruE, hcap1]
      exact hcap
    · rw [hlruE]
      exact hrepr1
    · rw [hlenF, hlruE, hcap1, List.length_cons, List.length_erase_of_mem hkmem]
      omega
    · rw [hlruE]
      exact hcap1
  · -- fresh key
    have hnoneM : alookup c.map key = none := by
      cases hml : alookup c.map key with
      | none => rfl
      | some occ =>
        exact absurd ((hmiff key).mp (by rw [hml]; simp)) hkmem
    have herase : l.erase key = l := List.erase_of_not_mem hkmem
    rw [herase] at hrepr1 hlen1
    have hlen1' : (c.lru.pushFront key).links.length = l.length + 1 := by
      rw [hlen1]
      rfl
    cases hover : (c.lru.pushFront key).overCapacity with
    | false =>
      have hroom : l.length + 1 ≤ c.lru.capacity := by
        unfold LruState.overCapacity at hover
        rw [hlen1', hcap1] at hover
        have := of_decide_eq_false hover
        omega
      have hmapE : (c.put now key value ttl).map
          = ainsert c.map key ⟨value, 1, ttl.map (fun ttlMs => now + ttlMs)⟩ := by
        unfold Cache.put
        simp only [LruState.touch]
        rw [hnoneM, hover]
        rfl
      have hlruE : (c.put now key value ttl).lru = c.lru.pushFront key := by
        unfold Cache.put
        simp only [LruState.touch]
        rw [hnoneM, hover]
        rfl
      have hiff1 : ∀ q,
          (alookup (c.put now key value ttl).map q).isSome ↔ q ∈ key :: l := by
        intro q
        rw [hmapE]
        by_cases hq : q = key
        · subst hq
          rw [alookup_ainsert_self]
          simp
        · rw [alookup_ainsert_ne _ _ _ _ (fun hh => hq hh.symm), hmiff q]
          simp [List.mem_cons, hq]
      have hnd1 : (akeys (c.put now key value ttl).map).Nodup := by
        rw [hmapE, akeys_ainsert_of_not_mem _ _ _ hnoneM, List.nodup_cons]
        refine ⟨fun hh => ?_, hmnd⟩
        rw [← alookup_isSome_iff_mem, hnoneM] at hh
        exact absurd hh (by simp)
      have hlnd1 : (key :: l).Nodup := by
        obtain ⟨hx, -⟩ := hrepr1
        exact hx
      have hlenF : (c.put now key value ttl).map.length = (key :: l).length :=
        map_length_eq_of_iff _ _ hnd1 hlnd1 hiff1
      refine ⟨⟨?_, key :: l, ?_, hnd1, hlenF, hiff1, ?_⟩, ?_⟩
      · rw [hlruE, hcap1]
        exact hcap
      · rw [hlruE]
        exact hrepr1
      · rw [hlenF, hlruE, hcap1, List.length_cons]
        omega
      · rw [hlruE]
        exact hcap1
    | true =>
      -- over capacity: the LRU tail is popped and evicted from the index
      have hlne : l ≠ [] := by
        intro hh
        subst hh
        unfold LruState.overCapacity at hover
        rw [hlen1', hcap1] at hover
        have h2 := of_decide_eq_true hover
        simp only [List.length_nil] at h2
        omega
      obtain ⟨xs, t, rfl⟩ : ∃ xs tt, l = xs ++ [tt] := by
        rcases List.eq_nil_or_concat l with hl | ⟨xs, tt, hl⟩
        · exact absurd hl hlne
        · exact ⟨xs, tt, by rw [hl, List.concat_eq_append]⟩
      have htxs : t ∉ xs := by
        intro hh
        exact (List.nodup_append.mp hlnd).2.2 hh (by simp)
      have htkey : ¬ t = key := by
        intro hh
        exact hkmem (hh ▸ (by simp : t ∈ xs ++ [t]))
      have hPB := popBack_repr (c.lru.pushFront key) (key :: (xs ++ [t])) hrepr1 (by simp)
      have hpb1 : ((c.lru.pushFront key).popBack).1 = some t := by
        rw [hPB.1, show (key :: (xs ++ [t])) = (key :: xs) ++ [t] from by simp,
          List.getLast?_concat]
      have hdropE : (key :: (xs ++ [t])).dropLast = key :: xs := by
        rw [show (key :: (xs ++ [t])) = (key :: xs) ++ [t] from by simp,
          List.dropLast_concat]
      have hmapE : (c.put now key value ttl).map
          = aerase (ainsert c.map key ⟨value, 1, ttl.map (fun ttlMs => now + ttlMs)⟩) t := by
        unfold Cache.put
        simp only [LruState.touch]
        rw [hnoneM, hover, if_pos rfl]
        rw [show (c.lru.pushFront key).popBack
            = (((c.lru.pushFront key).popBack).1, ((c.lru.pushFront key).popBack).2) from rfl]
        rw [hpb1]
        dsimp only
        rw [if_pos htkey]
      have hlruE : (c.put now key value ttl).lru = ((c.lru.pushFront key).popBack).2 := by
        unfold Cache.put
        simp only [LruState.touch]
        rw [hnoneM, hover, if_pos rfl]
        rw [show (c.lru.pushFront key).popBack
            = (((c.lru.pushFront key).popBack).1, ((c.lru.pushFront key).popBack).2) from rfl]
        rw [hpb1]
        dsimp only
        rw [if_pos htkey]
      have hrepr2 : ReprLru ((c.lru.pushFront key).popBack).2 (key :: xs) := by
        rw [← hdropE]
        exact hPB.2.1
      have hcap2 : ((c.lru.pushFront key).popBack).2.capacity = c.lru.capacity := by
        rw [hPB.2.2, hcap1]
      have hiff1 : ∀ q,
          (alookup (c.put now key value ttl).map q).isSome ↔ q ∈ key :: xs := by
        intro q
        rw [hmapE]
        by_cases hqt : q = t
        · subst hqt
          rw [alookup_aerase_self]
          simp [htkey, htxs]
        · rw [alookup_aerase_ne _ _ _ (fun hh => hqt hh.symm)]
          by_cases hq : q = key
          · subst hq
            rw [alookup_ainsert_self]
            simp
          · rw [alookup_ainsert_ne _ _ _ _ (fun hh => hq hh.symm), hmiff q]
            simp [List.mem_append, hq, hqt]
      have hnd1 : (akeys (c.put now key value ttl).map).Nodup := by
        rw [hmapE, akeys_aerase, akeys_ainsert_of_not_mem _ _ _ hnoneM]
        refine List.Nodup.filter _ (List.nodup_cons.mpr ⟨fun hh => ?_, hmnd⟩)
        rw [← alookup_isSome_iff_mem, hnoneM] at hh
        exact absurd hh (by simp)
      have hlnd1 : (key :: xs).Nodup := by
        obtain ⟨hx, -⟩ := hrepr2
        exact hx
      have hlenF : (c.put now key value ttl).map.length = (key :: xs).length :=
        map_length_eq_of_iff _ _ hnd1 hlnd1 hiff1
      refine ⟨⟨?_, key :: xs, ?_, hnd1, hlenF, hiff1, ?_⟩, ?_⟩
      · rw [hlruE, hcap2]
        exact hcap
      · rw [hlruE]
        exact hrepr2
      · rw [hlenF, hlruE, hcap2, List.length_cons]
        have hxl : xs.length + 1 = (xs ++ [t]).length := by
          simp
        omega
      · rw [hlruE]
        exact hcap2

theorem get_inv (c : Cache K V) (now : Nat) (key : K) (h : CacheInv c) :
    CacheInv ((c.get now key).2) ∧ ((c.get now key).2).lru.capacity = c.lru.capacity := by
  cases hml : alookup c.map key with
  | none =>
    have hres : (c.get now key).2 = c := by
      unfold Cache.get
      rw [hml]
    rw [hres]
    exact ⟨h, rfl⟩
  | some entry =>
    cases hexp : entry.expiresAt.elim false (fun exp => AppTime.isBeforeOrEq exp now) with
    | true =>
      have hres : (c.get now key).2 = (c.invalidate key).2 := by
        unfold Cache.get
        rw [hml]
        dsimp only
        rw [hexp]
        rfl
      rw [hres]
      exact invalidate_inv c key h
    | false =>
      obtain ⟨hcap, l, hrepr, hmnd, hmlen, hmiff, hle⟩ := h
      obtain ⟨hlnd, hhd, htl, hknd2, hlen2, hluk2⟩ := hrepr
      obtain ⟨hrepr1, hcap1⟩ :=
        pushFront_repr c.lru l key ⟨hlnd, hhd, htl, hknd2, hlen2, hluk2⟩
      have hkmem : key ∈ l := (hmiff key).mp (by rw [hml]; simp)
      have hlpos : 1 ≤ l.length := List.length_pos.mpr (List.ne_nil_of_mem hkmem)
      have hlen1 : (c.lru.pushFront key).links.length = (key :: l.erase key).length := by
        obtain ⟨-, -, -, -, hx, -⟩ := hrepr1
        exact hx
      have hlen1' : (c.lru.pushFront key).links.length = l.length := by
        rw [hlen1, List.length_cons, List.length_erase_of_mem hkmem]
        omega
      have hover : (c.lru.pushFront key).overCapacity = false := by
        unfold LruState.overCapacity
        rw [hlen1', hcap1]
        exact decide_eq_false (by omega)
      have hres : (c.get now key).2 = { c with lru := c.lru.pushFront key } := by
        unfold Cache.get
        rw [hml]
        dsimp only
        rw [hexp]
        simp only [LruState.touch]
        rw [ite_self, hover]
        rfl
      rw [hres]
      have hiff1 : ∀ q, (alookup c.map q).isSome ↔ q ∈ key :: l.erase key := by
        intro q
        by_cases hq : q = key
        · subst hq
          rw [hml]
          simp
        · rw [hmiff q]
          simp [List.mem_cons, List.Nodup.mem_erase_iff hlnd, hq]
      refine ⟨⟨?_, key :: l.erase key, hrepr1, hmnd, ?_, hiff1, ?_⟩, hcap1⟩
      · show 0 < (c.lru.pushFront key).capacity
        rw [hcap1]
        exact hcap
      · show c.map.length = (key :: l.erase key).length
        rw [hmlen, List.length_cons, List.length_erase_of_mem hkmem]
        omega
      · show c.map.length ≤ (c.lru.pushFront key).capacity
        rw [hcap1]
        exact hle

theorem applyOp_inv (c : Cache K V) (op : CacheOp K V) (h : CacheInv c) :
    CacheInv (c.applyOp op) ∧ (c.applyOp op).lru.capacity = c.lru.capacity := by
  cases op with
  | put now key value ttl => exact put_inv c now key value ttl h
  | get now key => exact get_inv c now key h
  | invalidate key => exact invalidate_inv c key h

theorem run_inv (c : Cache K V) (ops : List (CacheOp K V)) (h : CacheInv c) :
    CacheInv (c.run ops) ∧ (c.run ops).lru.capacity = c.lru.capacity := by
  induction ops generalizing c with
  | nil => exact ⟨h, rfl⟩
  | cons op ops ih =>
    obtain ⟨h1, hc1⟩ := applyOp_inv c op h
    obtain ⟨h2, hc2⟩ := ih (c.applyOp op) h1
    exact ⟨h2, by rw [show (c.run (op :: ops)) = ((c.applyOp op).run ops) from rfl, hc2, hc1]⟩

theorem newWithCapacity_inv (cap ws tick now : Nat) (h : 0 < cap) :
    CacheInv (Cache.newWithCapacity cap ws tick now : Cache K V) := by
  refine ⟨h, [], ⟨by simp, rfl, rfl,
      by simp [akeys, Cache.newWithCapacity, LruState.new], rfl, fun q => rfl⟩,
    by simp [akeys, Cache.newWithCapacity], rfl, fun q => by simp [alookup], ?_⟩
  exact Nat.zero_le _

end JChallenge

namespace JChallenge

variable {K : Type} [DecidableEq K] {V : Type}

/-- C2: for every sequence of `put`/`get`/`invalidate` operations on a cache
engine created with capacity `C > 0`, the number of entries in the index is
at most `C` after every externally observable operation (`Cache::put` pops
the LRU tail once and removes that victim from the index whenever the LRU
goes over capacity, and no other operation grows the index). -/
theorem cache_size_at_most_capacity (cap ws tick start : Nat) (hcap : 0 < cap)
    (ops : List (CacheOp K V)) :
    ((Cache.newWithCapacity cap ws tick start : Cache K V).run ops).map.length ≤ cap := by
  obtain ⟨hinv, hc⟩ := run_inv _ ops (newWithCapacity_inv cap ws tick start hcap)
  obtain ⟨-, l, -, -, -, -, hle⟩ := hinv
  rw [hc] at hle
  exact hle

theorem cache_size_at_most_capacity_witness :
    0 < 2 ∧ ((Cache.newWithCapacity 2 8 10 0 : Cache Nat Nat).run
      [.put 0 1 11 (some 50), .put 1 2 22 none, .put 2 3 33 none,
       .get 3 2, .invalidate 2]).map.length ≤ 2 :=
  ⟨by decide, cache_size_at_most_capacity 2 8 10 0 (by decide) _⟩

/-- C5: every `put`, `get` and `invalidate` operation preserves the cache
invariant, and under it the index and the LRU recency list hold exactly the
same key set (a key has an entry in the map iff the LRU links contain it). -/
theorem cache_map_lru_same_keyset (c : Cache K V) (op : CacheOp K V) (h : CacheInv c) :
    CacheInv (c.applyOp op) ∧
      ∀ q, (alookup (c.applyOp op).map q).isSome = (c.applyOp op).lru.contains q := by
  obtain ⟨hinv, -⟩ := applyOp_inv c op h
  refine ⟨hinv, ?_⟩
  obtain ⟨-, l, hrepr, -, -, hiff, -⟩ := hinv
  obtain ⟨hlnd, -, -, -, -, hluk⟩ := hrepr
  intro q
  unfold LruState.contains
  rw [hluk q]
  have h1 := hiff q
  have h2 := alookup_seg_isSome_iff l q hlnd
  cases ha : (alookup (c.applyOp op).map q).isSome with
  | true =>
    have hq : q ∈ l := h1.mp (by rw [ha])
    exact (h2.mpr hq).symm
  | false =>
    cases hb : (alookup (seg none l) q).isSome with
    | true => exact absurd (h1.mpr (h2.mp (by rw [hb]))) (by rw [ha]; simp)
    | false => rfl

theorem cache_map_lru_same_keyset_witness :
    CacheInv ((Cache.newWithCapacity 2 8 10 0 : Cache Nat Nat).applyOp
        (.put 0 5 7 (some 30))) ∧
      ∀ q, (alookup ((Cache.newWithCapacity 2 8 10 0 : Cache Nat Nat).applyOp
          (.put 0 5 7 (some 30))).map q).isSome
        = ((Cache.newWithCapacity 2 8 10 0 : Cache Nat Nat).applyOp
            (.put 0 5 7 (some 30))).lru.contains q :=
  cache_map_lru_same_keyset _ _ (newWithCapacity_inv 2 8 10 0 (by decide))

end JChallenge

namespace JChallenge

theorem addNode_nodeExists (hashFn : String → Nat) (h : HasherState) (nodeId : String) :
    ((h.addNode hashFn nodeId).1).nodeExists nodeId = true := by
  unfold HasherState.addNode HasherState.nodeExists
  by_cases hmem : nodeId ∈ h.realNodes
  · rw [if_pos hmem]
    exact decide_eq_true hmem
  · rw [if_neg hmem]
    exact decide_eq_true
      (show nodeId ∈
          (insertVnodes hashFn { h with realNodes := nodeId :: h.realNodes } nodeId).realNodes
        from List.mem_cons_self _ _)

/-- C8: `handle_master_insert` ignores the boolean returned by the ring's
`add_node`; after the call `node_exists` is always true (a duplicate id was
already marked real, a fresh one was just marked), so the `ConnectionError`
guard never fires and the use case always proceeds to `add_master_node`,
whose result it propagates. -/
theorem assign_primary_always_proceeds (hashFn : String → Nat) (h : HasherState)
    (t : TcpState) (nodeId : String) :
    handleMasterInsert hashFn h t nodeId
      = match t.addMasterNode nodeId with
        | .error e => .error e
        | .ok (success, t1) => .ok (⟨success⟩, (h.addNode hashFn nodeId).1, t1) := by
  unfold handleMasterInsert
  dsimp only
  rw [addNode_nodeExists hashFn h nodeId]
  rw [if_neg (show ¬ ¬ (true = true) by simp)]

/-- C8 (counterexample to the claim as stated): re-assigning the already
present primary `n1` makes the ring's `add_node` return `false` (duplicate),
yet `handle_master_insert` does not surface a `ConnectionError`: it proceeds
to `add_master_node` and returns `Ok` with `success = false`. -/
theorem assign_duplicate_primary_no_connection_error :
    ((HasherState.mk [] ["n1"] 1).addNode (fun _ => 0) "n1").2 = false ∧
    handleMasterInsert (fun _ => 0) (HasherState.mk [] ["n1"] 1)
        (TcpState.mk [("n1", ["n1"])] ["n1"] [("n1", some "n1")]) "n1"
      = .ok (⟨false⟩, HasherState.mk [] ["n1"] 1,
          TcpState.mk [("n1", ["n1"])] ["n1"] [("n1", some "n1")]) :=
  ⟨rfl, rfl⟩

theorem removeNodeExecute_eq (h : HasherState) (t : TcpState) (nodeId : String)
    (removed : Bool) (t1 : TcpState)
    (hok : t.removeNode nodeId = .ok (removed, t1)) :
    removeNodeExecute h t nodeId
      = if removed then
          .ok (⟨(if t.countReplicaNodes nodeId ≤ 1 then (h.removeNode nodeId).1 else false)
              && removed⟩,
            (if t.countReplicaNodes nodeId ≤ 1 then (h.removeNode nodeId).2 else h), t1)
        else .error (.nodeNotFound (nodeId ++ " in network service")) := by
  unfold removeNodeExecute
  dsimp only
  rw [hok]
  by_cases hcnt : t.countReplicaNodes nodeId ≤ 1
  · rw [if_pos hcnt, if_pos hcnt, if_pos hcnt]
    cases removed with
    | true => rfl
    | false => rfl
  · rw [if_neg hcnt, if_neg hcnt, if_neg hcnt]
    cases removed with
    | true => rfl
    | false => rfl

theorem removeNode_ok_of_role (t : TcpState) (nodeId : String)
    (hrole : (alookup t.masterOf nodeId).getD none ≠ none ∨ nodeId ∉ t.registry) :
    ∃ removed t1, t.removeNode nodeId = .ok (removed, t1) ∧
      t1.registry = t.registry.erase nodeId := by
  by_cases hreg : nodeId ∈ t.registry
  · obtain ⟨m, hmo⟩ : ∃ m, (alookup t.masterOf nodeId).getD none = some m := by
      rcases hrole with h1 | h1
      · cases hm : (alookup t.masterOf nodeId).getD none with
        | none => exact absurd hm h1
        | some m => exact ⟨m, rfl⟩
      · exact absurd hreg h1
    unfold TcpState.removeNode
    dsimp only
    rw [if_pos hreg, hmo]
    dsimp only
    cases hnm : alookup t.nodes m with
    | none => exact ⟨_, _, rfl, rfl⟩
    | some shard =>
      dsimp only
      by_cases hin : nodeId ∈ shard
      · rw [if_pos hin]
        by_cases hemp : shard.erase nodeId = []
        · rw [if_pos hemp]
          exact ⟨_, _, rfl, rfl⟩
        · rw [if_neg hemp]
          exact ⟨_, _, rfl, rfl⟩
      · rw [if_neg hin]
        exact ⟨_, _, rfl, rfl⟩
  · unfold TcpState.removeNode
    dsimp only
    rw [if_neg hreg]
    rw [show sweepShards nodeId t.nodes
        = ((sweepShards nodeId t.nodes).1, (sweepShards nodeId t.nodes).2) from rfl]
    dsimp only
    cases hf : (sweepShards nodeId t.nodes).1 with
    | true => exact ⟨_, _, rfl, rfl⟩
    | false => exact ⟨_, _, rfl, rfl⟩

/-- C9: for every `remove_node(id)` on a node that has a role (its
`master_id` cell is set — its own id for a primary, its master's id for a
secondary) or is absent from the registry, the network removal returns `Ok`
and the id is always erased from the flat nodes registry; the use case
reports `NodeNotFound` exactly when the topology removal reports `false`,
and the consistent-hash ring entry is removed only when
`count_replica_nodes(id) ≤ 1` (otherwise the hasher state is untouched). -/
theorem remove_node_registry_ring_notfound (h : HasherState) (t : TcpState)
    (nodeId : String)
    (hrole : (alookup t.masterOf nodeId).getD none ≠ none ∨ nodeId ∉ t.registry) :
    ∃ removed t1,
      t.removeNode nodeId = .ok (removed, t1) ∧
      t1.registry = t.registry.erase nodeId ∧
      removeNodeExecute h t nodeId
        = (if removed then
            .ok (⟨(if t.countReplicaNodes nodeId ≤ 1 then (h.removeNode nodeId).1 else false)
                && removed⟩,
              (if t.countReplicaNodes nodeId ≤ 1 then (h.removeNode nodeId).2 else h), t1)
          else .error (.nodeNotFound (nodeId ++ " in network service"))) := by
  obtain ⟨removed, t1, hok, hregistry⟩ := removeNode_ok_of_role t nodeId hrole
  exact ⟨removed, t1, hok, hregistry, removeNodeExecute_eq h t nodeId removed t1 hok⟩

theorem remove_node_registry_ring_notfound_witness :
    ∃ removed t1,
      (TcpState.mk [("m", ["m", "r"])] ["m", "r"]
          [("m", some "m"), ("r", some "m")]).removeNode "r" = .ok (removed, t1) ∧
      t1.registry = (TcpState.mk [("m", ["m", "r"])] ["m", "r"]
          [("m", some "m"), ("r", some "m")]).registry.erase "r" ∧
      removeNodeExecute (HasherState.mk [(5, "r"), (7, "m")] ["r", "m"] 1)
          (TcpState.mk [("m", ["m", "r"])] ["m", "r"] [("m", some "m"), ("r", some "m")]) "r"
        = (if removed then
            .ok (⟨(if (TcpState.mk [("m", ["m", "r"])] ["m", "r"]
                    [("m", some "m"), ("r", some "m")]).countReplicaNodes "r" ≤ 1 then
                  ((HasherState.mk [(5, "r"), (7, "m")] ["r", "m"] 1).removeNode "r").1
                else false) && removed⟩,
              (if (TcpState.mk [("m", ["m", "r"])] ["m", "r"]
                    [("m", some "m"), ("r", some "m")]).countReplicaNodes "r" ≤ 1 then
                ((HasherState.mk [(5, "r"), (7, "m")] ["r", "m"] 1).removeNode "r").2
              else HasherState.mk [(5, "r"), (7, "m")] ["r", "m"] 1), t1)
          else .error (.nodeNotFound ("r" ++ " in network service"))) :=
  remove_node_registry_ring_notfound (HasherState.mk [(5, "r"), (7, "m")] ["r", "m"] 1)
    (TcpState.mk [("m", ["m", "r"])] ["m", "r"] [("m", some "m"), ("r", some "m")]) "r"
    (Or.inl (by decide))

end JChallenge
